import Mathlib

/-! # The merging selection modifiers (`merge` and `plus`) of `sm_merge.c`

A shallow embedding of `src/gmxlib/selection/sm_merge.c` and theorems about it.

Conventions of the embedding.

* A C `int` is an `Int`.  The sums and products of the reference-id arithmetic
  (lines 421, 425 and 459) are reduced to 32 bits, two's complement, by
  `int_add` and `int_mul`.  The product of the size test (lines 279 and 408) is
  the mathematical product in `init_output_merge` and `evaluate_merge` and the
  `int` product in `init_output_merge32` and `evaluate_merge32`, which are
  otherwise the same functions; the two readings agree whenever the product is
  representable.  Position counts, loop counters and array indices are taken
  without overflow: they are bounded by the sizes of the arrays.
  C division and remainder truncate towards zero, so they are `Int.tdiv` and
  `Int.tmod`.
* A C array (a pointer to storage) is a total function from `Int` indices to
  values; a write `a[i] = v` is `upd a i v`.  Allocation sizes of the position
  arrays are not tracked; the capacity of an index group is, as `nalloc_index`.
* The arrays of one structure and the structures themselves occupy disjoint
  storage: the two inputs are read only and are never aliased by the output.
* A function that returns `int` and mutates `out` and `data` in place returns
  the return code together with the new `out` and `data`.
-/

namespace SmMerge

/-! ## Arrays and loops -/

/-- The array `a` after the assignment `a[i] = v`. -/
def upd {α : Type} (a : Int → α) (i : Int) (v : α) : Int → α :=
  fun k => if k = i then v else a k

/-- The C loop `for (k = lo; k < hi; ++k) body`, for a body that changes neither `k`
nor the bounds: the body runs for `k = lo, lo+1, ..., hi-1`, not at all when `hi <= lo`. -/
def for_loop {σ : Type} (lo hi : Int) (body : Int → σ → σ) (s : σ) : σ :=
  (List.range (hi - lo).toNat).foldl (fun s (t : Nat) => body (lo + (t : Int)) s) s

/-! ## Machine integers -/

/-- The C `int` (32 bits, two's complement) that the mathematical result `x` of an
`int` operation is reduced to. -/
def wrap_int (x : Int) : Int :=
  (x + 2147483648) % 4294967296 - 2147483648

/-- The integer `x` is representable as a C `int`: `INT_MIN <= x <= INT_MAX`. -/
def fits_int (x : Int) : Prop :=
  -2147483648 ≤ x ∧ x ≤ 2147483647

instance (x : Int) : Decidable (fits_int x) := by
  unfold fits_int
  infer_instance

/-- The C sum `a + b` of two `int`s. -/
def int_add (a b : Int) : Int := wrap_int (a + b)

/-- The C product `a * b` of two `int`s. -/
def int_mul (a b : Int) : Int := wrap_int (a * b)

/-! ## Data model

The type declarations live in headers outside the translated file (`position.h`,
`indexutil.h`, `typedefs.h`); the structures below carry the fields that
`sm_merge.c` reads or writes. -/

/-- Modelled from the spec: `rvec`, a coordinate of three floating-point components.
The code only copies coordinates (`copy_rvec`), so a component is represented by an
integer standing for its bit pattern. -/
structure rvec where
  XX : Int
  YY : Int
  ZZ : Int
deriving DecidableEq, Repr

/-- Modelled from the spec: `e_index_t`, the type tag of an index map. -/
inductive e_index_t where
  | INDEX_UNKNOWN
  | INDEX_ATOM
  | INDEX_RES
  | INDEX_MOL
  | INDEX_ALL
deriving DecidableEq, Repr

/-- Modelled from the spec: `t_block`, block boundaries `index[0..nr]`. -/
structure t_block where
  nr : Int
  index : Int → Int

/-- Modelled from the spec: `t_blocka`, block boundaries `index[0..nr]` into the
array `a[0..nra)`. -/
structure t_blocka where
  nr : Int
  index : Int → Int
  nra : Int
  a : Int → Int

/-- Modelled from the spec: `gmx_ana_index_t`, the IndexGroup: `isize` particle
indices in `index`, with room for `nalloc_index` of them. -/
structure gmx_ana_index_t where
  isize : Int
  index : Int → Int
  nalloc_index : Int

/-- Modelled from the spec: `gmx_ana_indexmap_t`, the per-position identifiers
(`refid`, `mapid`, `orgid`) and particle ranges (`mapb`, `b`) of a position set. -/
structure gmx_ana_indexmap_t where
  type : e_index_t
  nr : Int
  refid : Int → Int
  mapid : Int → Int
  mapb : t_block
  orgid : Int → Int
  b : t_blocka
  bStatic : Bool
  bMapStatic : Bool

/-- Modelled from the spec: `gmx_ana_pos_t` as an input position set: `nr` positions
with coordinates `x`, index map `m`, and the group that the pointer `g` refers to. -/
structure gmx_ana_pos_t where
  x : Int → rvec
  nr : Int
  m : gmx_ana_indexmap_t
  g : gmx_ana_index_t

/-- The output position set `out->u.p`: the fields of `gmx_ana_pos_t` other than the
pointer `g`.  `init_output_common` sets that pointer to `&d->g`, so the output group
is the field `g` of `t_methoddata_merge` and is not duplicated here. -/
structure out_pos_t where
  x : Int → rvec
  nr : Int
  m : gmx_ana_indexmap_t

/-- Data structure for the merging selection modifiers (`t_methoddata_merge`). -/
structure t_methoddata_merge where
  p1 : gmx_ana_pos_t
  p2 : gmx_ana_pos_t
  g : gmx_ana_index_t
  stride : Int

/-- What a method call leaves behind: its return code and the updated `out` and `data`. -/
structure call_result where
  ret : Int
  out : out_pos_t
  data : t_methoddata_merge

/-! ## Library routines used by the file -/

/-- Modelled from the spec: `gmx_ana_index_reserve(g, isize)` of `indexutil.c`, which
makes room for at least `isize` indices and keeps the contents. -/
def gmx_ana_index_reserve (g : gmx_ana_index_t) (isize : Int) : gmx_ana_index_t :=
  if g.nalloc_index < isize then { g with nalloc_index := isize } else g

/-- Modelled from the spec: `gmx_ana_pos_reserve(pos, n, isize)` of `position.c`, which
makes room for `n` positions and `isize` indices; allocation sizes of the position
arrays are not tracked, so the contents are returned as they are. -/
def gmx_ana_pos_reserve (pos : out_pos_t) (_n _isize : Int) : out_pos_t := pos

/-! ## The functions of `sm_merge.c` -/

/-- A position set with every field zero and an empty group. -/
def zero_pos : gmx_ana_pos_t :=
  { x := fun _ => ⟨0, 0, 0⟩
    nr := 0
    m := { type := e_index_t.INDEX_UNKNOWN, nr := 0, refid := fun _ => 0, mapid := fun _ => 0,
           mapb := { nr := 0, index := fun _ => 0 }, orgid := fun _ => 0,
           b := { nr := 0, index := fun _ => 0, nra := 0, a := fun _ => 0 },
           bStatic := false, bMapStatic := false }
    g := { isize := 0, index := fun _ => 0, nalloc_index := 0 } }

/-- `init_data_merge`: allocates the data, sets `stride = 0` and binds the parameter slots
to `p1`, `p2` and (for `npar > 2`) `stride`.  The allocated position sets hold null
pointers until the parameter values are stored through the bound slots; the data model
has no null pointer, so `p1` and `p2` are the values stored there before `init_merge` is
called. -/
def init_data_merge (_npar : Int) (p1 p2 : gmx_ana_pos_t) : t_methoddata_merge :=
  { p1 := p1
    p2 := p2
    g := { isize := 0, index := fun _ => 0, nalloc_index := 0 }
    stride := 0 }

/-- `init_merge`: rejects a negative stride, otherwise reserves the output group. -/
def init_merge (d : t_methoddata_merge) : Int × t_methoddata_merge :=
  if d.stride < 0 then
    (-1, d)
  else
    let g := gmx_ana_index_reserve d.g (d.p1.g.isize + d.p2.g.isize)
    (0, { d with g := { g with isize := d.p1.g.isize + d.p2.g.isize } })

/-- `init_output_common`: common initialization of the output for both modifiers. -/
def init_output_common (out : out_pos_t) (d : t_methoddata_merge) :
    out_pos_t × t_methoddata_merge :=
  let ty := if d.p1.m.type ≠ d.p2.m.type then e_index_t.INDEX_UNKNOWN else d.p1.m.type
  let out := gmx_ana_pos_reserve out (d.p1.nr + d.p2.nr) d.g.isize
  let nr := d.p1.nr + d.p2.nr
  ({ x := out.x
     nr := 0
     m := { type := ty
            nr := nr
            refid := out.m.refid
            mapid := out.m.mapid
            mapb := { nr := nr, index := upd out.m.mapb.index 0 0 }
            orgid := out.m.orgid
            b := { nr := nr, index := upd out.m.b.index 0 0, nra := d.g.isize, a := out.m.b.a }
            bStatic := d.p1.m.bStatic && d.p2.m.bStatic
            bMapStatic := d.p1.m.bMapStatic && d.p2.m.bMapStatic } },
   { d with g := { d.g with isize := 0 } })

/-- One round of the copy loop of `init_output_append_pos`:
`g->index[g->isize] = from->g->index[k]; out->m.b.a[g->isize] = from->m.b.a[k]; g->isize++`. -/
def init_copy_step (src : gmx_ana_pos_t) (k : Int) (st : out_pos_t × gmx_ana_index_t) :
    out_pos_t × gmx_ana_index_t :=
  ({ st.1 with m := { st.1.m with b := { st.1.m.b with a := upd st.1.m.b.a st.2.isize (src.m.b.a k) } } },
   { st.2 with index := upd st.2.index st.2.isize (src.g.index k), isize := st.2.isize + 1 })

/-- `init_output_append_pos`: appends position `i` of `src` to `out` and its particle
indices to `g` during static initialization. -/
def init_output_append_pos (out : out_pos_t) (g : gmx_ana_index_t) (src : gmx_ana_pos_t)
    (i : Int) : out_pos_t × gmx_ana_index_t :=
  let j := out.nr
  let out1 : out_pos_t :=
    { out with
      x := upd out.x j (src.x i)
      m := { out.m with
             refid := upd out.m.refid j j
             mapid := upd out.m.mapid j (src.m.mapid i)
             orgid := upd out.m.orgid j (src.m.orgid i) } }
  let st := for_loop (src.m.mapb.index i) (src.m.mapb.index (i + 1)) (init_copy_step src) (out1, g)
  ({ st.1 with
     nr := st.1.nr + 1
     m := { st.1.m with
            mapb := { st.1.m.mapb with index := upd st.1.m.mapb.index (j + 1) st.2.isize }
            b := { st.1.m.b with index := upd st.1.m.b.index (j + 1) st.2.isize } } },
   st.2)

/-- `init_output_merge`: static initialization of the `merge` modifier.  The result is
`none` when the stride has to be deduced and `p2.nr` is zero: the C division by zero
has no defined behaviour.  The size test of line 279 is taken over the integers here;
`init_output_merge32` has it in `int` arithmetic. -/
def init_output_merge (out : out_pos_t) (d : t_methoddata_merge) : Option call_result :=
  if d.stride = 0 ∧ d.p2.nr = 0 then
    none
  else
    let d : t_methoddata_merge :=
      if d.stride = 0 then { d with stride := Int.tdiv d.p1.nr d.p2.nr } else d
    if d.p1.nr ≠ d.stride * d.p2.nr then
      some { ret := -1, out := out, data := d }
    else
      let c := init_output_common out d
      let st := for_loop 0 d.p2.nr (fun i st =>
        let st := for_loop 0 d.stride (fun j st =>
          init_output_append_pos st.1 st.2 d.p1 (d.stride * i + j)) st
        init_output_append_pos st.1 st.2 d.p2 i) (c.1, c.2.g)
      some { ret := 0, out := st.1, data := { c.2 with g := st.2 } }

/-- `init_output_plus`: static initialization of the `plus` modifier. -/
def init_output_plus (out : out_pos_t) (d : t_methoddata_merge) : call_result :=
  let c := init_output_common out d
  let st := for_loop 0 d.p1.nr (fun i st => init_output_append_pos st.1 st.2 d.p1 i) (c.1, c.2.g)
  let st := for_loop 0 d.p2.nr (fun i st => init_output_append_pos st.1 st.2 d.p2 i) st
  { ret := 0, out := st.1, data := { c.2 with g := st.2 } }

/-- `evaluate_common`: common initialization before an evaluation. -/
def evaluate_common (out : out_pos_t) (d : t_methoddata_merge) :
    out_pos_t × t_methoddata_merge :=
  let nr := d.p1.nr + d.p2.nr
  ({ out with
     nr := 0
     m := { out.m with
            nr := nr
            mapb := { nr := nr, index := upd out.m.mapb.index 0 0 }
            bStatic := d.p1.m.bStatic && d.p2.m.bStatic
            bMapStatic := d.p1.m.bMapStatic && d.p2.m.bMapStatic } },
   { d with g := { d.g with isize := 0 } })

/-- One round of the copy loop of `evaluate_append_pos`:
`g->index[g->isize++] = from->g->index[k]`. -/
def eval_copy_step (src : gmx_ana_pos_t) (k : Int) (g : gmx_ana_index_t) : gmx_ana_index_t :=
  { g with index := upd g.index g.isize (src.g.index k), isize := g.isize + 1 }

/-- `evaluate_append_pos`: appends position `i` of `src` to `out` with reference id
`refid` (every negative value is stored as `-1`) and its particle indices to `g`. -/
def evaluate_append_pos (out : out_pos_t) (g : gmx_ana_index_t) (src : gmx_ana_pos_t)
    (i refid : Int) : out_pos_t × gmx_ana_index_t :=
  let j := out.nr
  let m1 : gmx_ana_indexmap_t :=
    if refid < 0 then
      { out.m with refid := upd out.m.refid j (-1) }
    else
      { out.m with
        refid := upd out.m.refid j refid
        mapid := upd out.m.mapid j (out.m.orgid refid) }
  let g1 := for_loop (src.m.mapb.index i) (src.m.mapb.index (i + 1)) (eval_copy_step src) g
  ({ x := upd out.x j (src.x i)
     nr := out.nr + 1
     m := { m1 with mapb := { m1.mapb with index := upd m1.mapb.index (j + 1) g1.isize } } },
   g1)

/-- The reference id that `evaluate_merge` passes for position `k` of `p1` (lines
418 to 422): `refid = (d->stride+1) * (refid / d->stride) + (refid % d->stride)` unless
`refid` is `-1`, in `int` arithmetic. -/
def merge_refid_p1 (d : t_methoddata_merge) (k : Int) : Int :=
  let refid := d.p1.m.refid k
  if refid ≠ -1 then
    int_add (int_mul (int_add d.stride 1) (Int.tdiv refid d.stride)) (Int.tmod refid d.stride)
  else
    refid

/-- The reference id that `evaluate_merge` passes for position `i` of `p2` (line 425):
`(d->stride+1)*d->p2.m.refid[i]+d->stride`, in `int` arithmetic. -/
def merge_refid_p2 (d : t_methoddata_merge) (i : Int) : Int :=
  int_add (int_mul (int_add d.stride 1) (d.p2.m.refid i)) d.stride

/-- `evaluate_merge`: evaluates the `merge` modifier; `-1` when the sizes do not fit.
The size test of line 408 is taken over the integers here; `evaluate_merge32` has it in
`int` arithmetic. -/
def evaluate_merge (out : out_pos_t) (d : t_methoddata_merge) : call_result :=
  if d.p1.nr ≠ d.stride * d.p2.nr then
    { ret := -1, out := out, data := d }
  else
    let c := evaluate_common out d
    let st := for_loop 0 d.p2.nr (fun i st =>
      let st := for_loop 0 d.stride (fun j st =>
        evaluate_append_pos st.1 st.2 d.p1 (d.stride * i + j)
          (merge_refid_p1 d (d.stride * i + j))) st
      evaluate_append_pos st.1 st.2 d.p2 i (merge_refid_p2 d i)) (c.1, c.2.g)
    { ret := 0, out := st.1, data := { c.2 with g := st.2 } }

/-- The reference id that `evaluate_plus` passes for position `i` of `p2` (lines 456 to
460): `refid += d->p1.m.b.nr` unless `refid` is `-1`, in `int` arithmetic. -/
def plus_refid_p2 (d : t_methoddata_merge) (i : Int) : Int :=
  let refid := d.p2.m.refid i
  if refid ≠ -1 then int_add refid d.p1.m.b.nr else refid

/-- `evaluate_plus`: evaluates the `plus` modifier. -/
def evaluate_plus (out : out_pos_t) (d : t_methoddata_merge) : call_result :=
  let c := evaluate_common out d
  let st := for_loop 0 d.p1.nr (fun i st =>
    evaluate_append_pos st.1 st.2 d.p1 i (d.p1.m.refid i)) (c.1, c.2.g)
  let st := for_loop 0 d.p2.nr (fun i st =>
    evaluate_append_pos st.1 st.2 d.p2 i (plus_refid_p2 d i)) st
  { ret := 0, out := st.1, data := { c.2 with g := st.2 } }

/-! ## Specification vocabulary -/

/-- The entries `a[lo], ..., a[hi-1]` of an array (empty when `hi <= lo`). -/
def slice (a : Int → Int) (lo hi : Int) : List Int :=
  (List.range (hi - lo).toNat).map (fun (t : Nat) => a (lo + (t : Int)))

/-- The particle slice of position `i` of `src`:
`src.g.index[mapb.index[i] .. mapb.index[i+1])`. -/
def particle_slice (src : gmx_ana_pos_t × Int) : List Int :=
  slice src.1.g.index (src.1.m.mapb.index src.2) (src.1.m.mapb.index (src.2 + 1))

/-- The order in which the `merge` loops visit their inputs: for each block
`i = 0 .. n-1`, the items `a (s*i + j)` for `j = 0 .. s-1`, then the item `b i`. -/
def merge_order {α : Type} (n s : Int) (a b : Int → α) : List α :=
  (List.range n.toNat).flatMap (fun (i : Nat) =>
    (List.range s.toNat).map (fun (j : Nat) => a (s * (i : Int) + (j : Int))) ++ [b (i : Int)])

/-- The order in which the `plus` loops visit their inputs: the items `a i` for
`i = 0 .. na-1`, then the items `b i` for `i = 0 .. nb-1`. -/
def plus_order {α : Type} (na nb : Int) (a b : Int → α) : List α :=
  (List.range na.toNat).map (fun (i : Nat) => a (i : Int))
    ++ (List.range nb.toNat).map (fun (i : Nat) => b (i : Int))

/-- The source positions that `evaluate_merge` and `init_output_merge` append, in the
order of the appends: for each block `i`, positions `stride*i + j` of `p1` for
`j = 0 .. stride-1`, then position `i` of `p2`. -/
def merge_sources (d : t_methoddata_merge) : List (gmx_ana_pos_t × Int) :=
  merge_order d.p2.nr d.stride (fun k => (d.p1, k)) (fun i => (d.p2, i))

/-- The source positions that `evaluate_plus` and `init_output_plus` append, in the
order of the appends: all of `p1`, then all of `p2`. -/
def plus_sources (d : t_methoddata_merge) : List (gmx_ana_pos_t × Int) :=
  plus_order d.p1.nr d.p2.nr (fun i => (d.p1, i)) (fun i => (d.p2, i))

/-! ## Sample inputs -/

/-- A position set of `n` single-particle positions: position `k` has the coordinate
`(base + k, 0, 0)`, the particle `base + k` and all identifiers equal to `k`. -/
def sample_pos (n base : Int) : gmx_ana_pos_t :=
  { x := fun k => ⟨base + k, 0, 0⟩
    nr := n
    m := { type := e_index_t.INDEX_ATOM, nr := n, refid := fun k => k, mapid := fun k => k,
           mapb := { nr := n, index := fun k => k }, orgid := fun k => k,
           b := { nr := n, index := fun k => k, nra := n, a := fun k => base + k },
           bStatic := true, bMapStatic := true }
    g := { isize := n, index := fun k => base + k, nalloc_index := n } }

/-- Method data with `a` sample positions in `p1`, `b` in `p2`, and the given stride. -/
def sample_data (a b stride : Int) : t_methoddata_merge :=
  { p1 := sample_pos a 100
    p2 := sample_pos b 200
    g := { isize := 0, index := fun _ => 0, nalloc_index := a + b }
    stride := stride }

/-- An output position set before any call. -/
def sample_out : out_pos_t :=
  { x := fun _ => ⟨0, 0, 0⟩, nr := 0, m := zero_pos.m }

/-! ## Auxiliary definitions for the proofs -/

/-- The group after the `n` indices `a[lo], ..., a[lo+n-1]` were appended to it. -/
def append_slice (g : gmx_ana_index_t) (a : Int → Int) (lo : Int) (n : Nat) : gmx_ana_index_t :=
  { g with
    index := fun k => if g.isize ≤ k ∧ k < g.isize + (n : Int) then a (lo + (k - g.isize)) else g.index k
    isize := g.isize + (n : Int) }

/-- The coordinates, position count, range boundaries and index group of an output. -/
structure layout where
  x : Int → rvec
  nr : Int
  mapb : Int → Int
  g : gmx_ana_index_t

/-- The layout of an output position set together with its index group. -/
def lay (st : out_pos_t × gmx_ana_index_t) : layout :=
  { x := st.1.x, nr := st.1.nr, mapb := st.1.m.mapb.index, g := st.2 }

/-- What appending one source position does to the layout. -/
def lay_append (L : layout) (src : gmx_ana_pos_t × Int) : layout :=
  { x := upd L.x L.nr (src.1.x src.2)
    nr := L.nr + 1
    mapb := upd L.mapb (L.nr + 1) (L.g.isize + ((particle_slice src).length : Int))
    g := append_slice L.g src.1.g.index (src.1.m.mapb.index src.2) (particle_slice src).length }

/-- The layout `L` holds exactly the source positions `srcs`, in this order. -/
structure Represents (L : layout) (srcs : List (gmx_ana_pos_t × Int)) : Prop where
  nr_eq : L.nr = (srcs.length : Int)
  mapb_zero : L.mapb 0 = 0
  mapb_last : L.mapb L.nr = L.g.isize
  mapb_mono : ∀ t : Nat, t < srcs.length → L.mapb (t : Int) ≤ L.mapb ((t : Int) + 1)
  mapb_bound : ∀ t : Nat, t ≤ srcs.length → 0 ≤ L.mapb (t : Int) ∧ L.mapb (t : Int) ≤ L.g.isize
  pos : ∀ (t : Nat) (src : gmx_ana_pos_t × Int), srcs[t]? = some src →
    L.x (t : Int) = src.1.x src.2 ∧
    slice L.g.index (L.mapb (t : Int)) (L.mapb ((t : Int) + 1)) = particle_slice src
  group : slice L.g.index 0 L.g.isize = srcs.flatMap particle_slice

/-- One append of an evaluation, for the triple `(src, i, refid)`. -/
def eval_step (st : out_pos_t × gmx_ana_index_t) (a : gmx_ana_pos_t × Int × Int) :
    out_pos_t × gmx_ana_index_t :=
  evaluate_append_pos st.1 st.2 a.1 a.2.1 a.2.2

/-- One append of a static initialization, for the pair `(src, i)`. -/
def init_step (st : out_pos_t × gmx_ana_index_t) (a : gmx_ana_pos_t × Int) :
    out_pos_t × gmx_ana_index_t :=
  init_output_append_pos st.1 st.2 a.1 a.2

/-- The appends of `evaluate_merge`, in order, each with the reference id it passes. -/
def merge_appends (d : t_methoddata_merge) : List (gmx_ana_pos_t × Int × Int) :=
  merge_order d.p2.nr d.stride (fun k => (d.p1, k, merge_refid_p1 d k))
    (fun i => (d.p2, i, merge_refid_p2 d i))

/-- The appends of `evaluate_plus`, in order, each with the reference id it passes. -/
def plus_appends (d : t_methoddata_merge) : List (gmx_ana_pos_t × Int × Int) :=
  plus_order d.p1.nr d.p2.nr (fun i => (d.p1, i, d.p1.m.refid i))
    (fun i => (d.p2, i, plus_refid_p2 d i))

/-- The output and group after `evaluate_common` and the appends `l`. -/
def eval_state (out : out_pos_t) (d : t_methoddata_merge)
    (l : List (gmx_ana_pos_t × Int × Int)) : out_pos_t × gmx_ana_index_t :=
  List.foldl eval_step ((evaluate_common out d).1, (evaluate_common out d).2.g) l

/-- The output and group after `init_output_common` and the appends `l`. -/
def init_state (out : out_pos_t) (d : t_methoddata_merge)
    (l : List (gmx_ana_pos_t × Int)) : out_pos_t × gmx_ana_index_t :=
  List.foldl init_step ((init_output_common out d).1, (init_output_common out d).2.g) l

/-- The data of `init_output_merge` once the stride is settled: a stride of zero is
replaced by the truncated quotient of the position counts. -/
def settle_stride (d : t_methoddata_merge) : t_methoddata_merge :=
  if d.stride = 0 then { d with stride := Int.tdiv d.p1.nr d.p2.nr } else d

/-- Method data for `plus` in which the single position of `p2` carries the reference
id `-5` and `p1` has five positions (so `p1.m.b.nr = 5`). -/
def neg_ref_data : t_methoddata_merge :=
  { p1 := sample_pos 5 100
    p2 := { sample_pos 1 200 with
            m := { (sample_pos 1 200).m with refid := fun _ => -5 } }
    g := { isize := 0, index := fun _ => 0, nalloc_index := 6 }
    stride := 0 }

/-- Method data for `merge` with stride 2 in which both positions of `p1` carry the
reference id `-3` and the single position of `p2` carries `-1`. -/
def neg_merge_data : t_methoddata_merge :=
  { p1 := { sample_pos 2 100 with
            m := { (sample_pos 2 100).m with refid := fun _ => -3 } }
    p2 := { sample_pos 1 200 with
            m := { (sample_pos 1 200).m with refid := fun _ => -1 } }
    g := { isize := 0, index := fun _ => 0, nalloc_index := 3 }
    stride := 2 }

/-- A frame for the output initialized from `sample_data 2 1 0`: `p1` as at
initialization, and in `p2` one position without reference (`refid = -1`) whose
`mapid` is 7. -/
def unref_frame_data : t_methoddata_merge :=
  { sample_data 2 1 0 with
    p2 := { sample_pos 1 200 with
            m := { (sample_pos 1 200).m with refid := fun _ => -1, mapid := fun _ => 7 } } }

/-- The range boundaries of a position set are well formed: `mapb.index[0] >= 0`, the
boundaries `mapb.index[0 .. nr]` are non-decreasing, and `mapb.index[nr] <= g.isize`. -/
def well_formed_ranges (p : gmx_ana_pos_t) : Prop :=
  0 ≤ p.m.mapb.index 0 ∧
  (∀ k ∈ List.range p.nr.toNat, p.m.mapb.index (k : Int) ≤ p.m.mapb.index ((k : Int) + 1)) ∧
  p.m.mapb.index p.nr ≤ p.g.isize

/-- The sum of the lengths of the particle ranges of the source positions `srcs`. -/
def range_lengths (srcs : List (gmx_ana_pos_t × Int)) : Int :=
  (srcs.map (fun src => ((particle_slice src).length : Int))).sum

instance (p : gmx_ana_pos_t) : Decidable (well_formed_ranges p) := by
  unfold well_formed_ranges
  infer_instance

/-- Two outputs, each with its index group, have the same layout: the same position
count, the same coordinates in the same order, the same range boundaries
`mapb.index[0 .. nr]`, and index groups of the same size with the same contents. -/
def same_layout (o1 : out_pos_t) (g1 : gmx_ana_index_t) (o2 : out_pos_t)
    (g2 : gmx_ana_index_t) : Prop :=
  o1.nr = o2.nr ∧
  (∀ k : Int, 0 ≤ k → k < o1.nr → o1.x k = o2.x k) ∧
  (∀ k : Int, 0 ≤ k → k ≤ o1.nr → o1.m.mapb.index k = o2.m.mapb.index k) ∧
  g1.isize = g2.isize ∧
  (∀ k : Int, 0 ≤ k → k < g1.isize → g1.index k = g2.index k)

/-! ## The size test in machine arithmetic

`evaluate_merge` and `init_output_merge` above compare `p1.nr` with the mathematical
product `stride * p2.nr`, which is the product the machine computes when it is
representable as an `int`.  The two functions below are the same functions with the
product of lines 279 and 408 computed as an `int` product; each agrees with its
counterpart above when `fits_int (stride * p2.nr)`. -/

/-- `evaluate_merge` with the size test `d->p1.nr != d->stride*d->p2.nr` of line 408 in
`int` arithmetic. -/
def evaluate_merge32 (out : out_pos_t) (d : t_methoddata_merge) : call_result :=
  if d.p1.nr ≠ int_mul d.stride d.p2.nr then
    { ret := -1, out := out, data := d }
  else
    let c := evaluate_common out d
    let st := for_loop 0 d.p2.nr (fun i st =>
      let st := for_loop 0 d.stride (fun j st =>
        evaluate_append_pos st.1 st.2 d.p1 (d.stride * i + j)
          (merge_refid_p1 d (d.stride * i + j))) st
      evaluate_append_pos st.1 st.2 d.p2 i (merge_refid_p2 d i)) (c.1, c.2.g)
    { ret := 0, out := st.1, data := { c.2 with g := st.2 } }

/-- `init_output_merge` with the size test `d->p1.nr != d->stride*d->p2.nr` of line 279
in `int` arithmetic. -/
def init_output_merge32 (out : out_pos_t) (d : t_methoddata_merge) : Option call_result :=
  if d.stride = 0 ∧ d.p2.nr = 0 then
    none
  else
    let d : t_methoddata_merge :=
      if d.stride = 0 then { d with stride := Int.tdiv d.p1.nr d.p2.nr } else d
    if d.p1.nr ≠ int_mul d.stride d.p2.nr then
      some { ret := -1, out := out, data := d }
    else
      let c := init_output_common out d
      let st := for_loop 0 d.p2.nr (fun i st =>
        let st := for_loop 0 d.stride (fun j st =>
          init_output_append_pos st.1 st.2 d.p1 (d.stride * i + j)) st
        init_output_append_pos st.1 st.2 d.p2 i) (c.1, c.2.g)
      some { ret := 0, out := st.1, data := { c.2 with g := st.2 } }

/-! ## The remapping formulas over the integers -/

/-- The remapped reference id of a position of `p1`, over the integers:
`(s+1) * (r / s) + (r % s)` with the truncating quotient and remainder of C. -/
def remap_p1 (s r : Int) : Int :=
  (s + 1) * Int.tdiv r s + Int.tmod r s

/-- The reference id of a position of `p2` in the merged output, over the integers:
`(s+1) * r + s`. -/
def remap_p2 (s r : Int) : Int :=
  (s + 1) * r + s

/-! ## Sample inputs at the limits of `int` -/

/-- Method data for `merge` with stride 1 in which the single positions of `p1` and of
`p2` carry the reference id `2^30`. -/
def big_ref_data : t_methoddata_merge :=
  { p1 := { sample_pos 1 100 with
            m := { (sample_pos 1 100).m with refid := fun _ => 1073741824 } }
    p2 := { sample_pos 1 200 with
            m := { (sample_pos 1 200).m with refid := fun _ => 1073741824 } }
    g := { isize := 0, index := fun _ => 0, nalloc_index := 2 }
    stride := 1 }

/-- Method data for `merge` with stride 1 in which the single position of `p2` carries
the reference id `INT_MIN`. -/
def min_ref_data : t_methoddata_merge :=
  { p1 := sample_pos 1 100
    p2 := { sample_pos 1 200 with
            m := { (sample_pos 1 200).m with refid := fun _ => -2147483648 } }
    g := { isize := 0, index := fun _ => 0, nalloc_index := 2 }
    stride := 1 }

/-- Method data for `merge` with stride 1 in which the single position of `p2` carries
the reference id `INT_MIN + 5`. -/
def low_ref_data : t_methoddata_merge :=
  { p1 := sample_pos 1 100
    p2 := { sample_pos 1 200 with
            m := { (sample_pos 1 200).m with refid := fun _ => -2147483643 } }
    g := { isize := 0, index := fun _ => 0, nalloc_index := 2 }
    stride := 1 }

/-- Method data for `plus` in which the single position of `p2` carries the reference id
`INT_MAX` and `p1` has one position (so `p1.m.b.nr = 1`). -/
def max_ref_data : t_methoddata_merge :=
  { p1 := sample_pos 1 100
    p2 := { sample_pos 1 200 with
            m := { (sample_pos 1 200).m with refid := fun _ => 2147483647 } }
    g := { isize := 0, index := fun _ => 0, nalloc_index := 2 }
    stride := 0 }

/-- Method data for `plus` in which `p1` has one position and `p1.m.b.nr = INT_MAX`, and
`p2` has two positions with reference ids 0 and 1. -/
def max_bnr_data : t_methoddata_merge :=
  { p1 := { sample_pos 1 100 with
            m := { (sample_pos 1 100).m with
                   b := { (sample_pos 1 100).m.b with nr := 2147483647 } } }
    p2 := sample_pos 2 200
    g := { isize := 0, index := fun _ => 0, nalloc_index := 3 }
    stride := 0 }

/-- Method data with no position in `p1`, four in `p2` and stride `2^30`: the product
`stride * p2.nr = 2^32` is `0` as an `int`. -/
def overflow_size_data : t_methoddata_merge :=
  { p1 := sample_pos 0 100
    p2 := sample_pos 4 200
    g := { isize := 0, index := fun _ => 0, nalloc_index := 4 }
    stride := 1073741824 }

/-- Method data for `merge` with stride 1 in which the position of `p1` refers to
itself (`refid = 0`) and the position of `p2` has no reference (`refid = -1`). -/
def mixed_ref_data : t_methoddata_merge :=
  { p1 := sample_pos 1 100
    p2 := { sample_pos 1 200 with
            m := { (sample_pos 1 200).m with refid := fun _ => -1 } }
    g := { isize := 0, index := fun _ => 0, nalloc_index := 2 }
    stride := 1 }

/-! ## Arrays, loops and slices: basic facts -/

@[simp] theorem upd_same {α : Type} (a : Int → α) (i : Int) (v : α) : upd a i v i = v := by
  simp [upd]

theorem upd_other {α : Type} (a : Int → α) {i k : Int} (v : α) (h : k ≠ i) :
    upd a i v k = a k := by
  simp [upd, h]

theorem for_loop_empty {σ : Type} {lo hi : Int} (body : Int → σ → σ) (s : σ) (h : hi ≤ lo) :
    for_loop lo hi body s = s := by
  have : (hi - lo).toNat = 0 := by omega
  simp [for_loop, this]

/-- A projection that commutes with the body commutes with the loop. -/
theorem for_loop_hom {σ τ : Type} (proj : σ → τ) (lo hi : Int) (body : Int → σ → σ)
    (body2 : Int → τ → τ) (h : ∀ k s, proj (body k s) = body2 k (proj s)) (s : σ) :
    proj (for_loop lo hi body s) = for_loop lo hi body2 (proj s) := by
  unfold for_loop
  generalize (hi - lo).toNat = n
  induction n with
  | zero => simp
  | succ n ih => simp [List.range_succ, List.foldl_append, h, ih]

/-- A loop whose body leaves a projection alone leaves it alone. -/
theorem for_loop_frame {σ τ : Type} (proj : σ → τ) (lo hi : Int) (body : Int → σ → σ)
    (h : ∀ k s, proj (body k s) = proj s) (s : σ) :
    proj (for_loop lo hi body s) = proj s := by
  unfold for_loop
  generalize (hi - lo).toNat = n
  induction n with
  | zero => simp
  | succ n ih => simp [List.range_succ, List.foldl_append, h, ih]

/-- A loop that feeds `g k` to a step function is a fold over the list of the `g k`. -/
theorem for_loop_eq_foldl {σ β : Type} (lo hi : Int) (f : σ → β → σ) (g : Int → β) (s : σ) :
    for_loop lo hi (fun k s => f s (g k)) s
      = List.foldl f s ((List.range (hi - lo).toNat).map (fun (t : Nat) => g (lo + (t : Int)))) := by
  simp [for_loop, List.foldl_map]

theorem foldl_flatMap {σ α β : Type} (f : σ → β → σ) (g : α → List β) (l : List α) (s : σ) :
    List.foldl f s (l.flatMap g) = List.foldl (fun s a => List.foldl f s (g a)) s l := by
  induction l generalizing s with
  | nil => simp
  | cons a l ih => simp [List.flatMap_cons, List.foldl_append, ih]

theorem slice_length (a : Int → Int) (lo hi : Int) : (slice a lo hi).length = (hi - lo).toNat := by
  simp [slice]

theorem slice_congr {a b : Int → Int} {lo hi : Int}
    (h : ∀ k, lo ≤ k → k < hi → a k = b k) : slice a lo hi = slice b lo hi := by
  unfold slice
  apply List.map_congr_left
  intro t ht
  have := List.mem_range.mp ht
  apply h <;> omega

theorem slice_append (a : Int → Int) {lo mid hi : Int} (h1 : lo ≤ mid) (h2 : mid ≤ hi) :
    slice a lo hi = slice a lo mid ++ slice a mid hi := by
  unfold slice
  have e : (hi - lo).toNat = (mid - lo).toNat + (hi - mid).toNat := by omega
  rw [e, List.range_add, List.map_append, List.map_map]
  congr 1
  apply List.map_congr_left
  intro t _
  simp only [Function.comp]
  congr 1
  push_cast
  omega

/-! ## The copy loop -/

theorem eval_copy_loop (src : gmx_ana_pos_t) (lo hi : Int) (g : gmx_ana_index_t) :
    for_loop lo hi (eval_copy_step src) g = append_slice g src.g.index lo (hi - lo).toNat := by
  unfold for_loop
  generalize (hi - lo).toNat = n
  induction n with
  | zero =>
    simp only [List.range_zero, List.foldl_nil, append_slice]
    obtain ⟨isz, idx, na⟩ := g
    simp only [gmx_ana_index_t.mk.injEq, Nat.cast_zero, add_zero, true_and, and_true]
    funext k
    have : ¬ (isz ≤ k ∧ k < isz) := by omega
    simp [this]
  | succ n ih =>
    rw [List.range_succ, List.foldl_append, ih]
    simp only [List.foldl_cons, List.foldl_nil, eval_copy_step, append_slice]
    simp only [gmx_ana_index_t.mk.injEq, and_true]
    refine ⟨by push_cast; omega, ?_⟩
    funext k
    simp only [upd]
    by_cases h1 : k = g.isize + (n : Int)
    · subst h1
      have : g.isize ≤ g.isize + (n : Int) ∧ g.isize + (n : Int) < g.isize + ((n + 1 : Nat) : Int) := by
        push_cast; omega
      simp only [if_true, this, and_self]
      congr 1
      omega
    · simp only [h1, if_false]
      by_cases h2 : g.isize ≤ k ∧ k < g.isize + (n : Int)
      · have : g.isize ≤ k ∧ k < g.isize + ((n + 1 : Nat) : Int) := by push_cast; omega
        simp only [h2, this, and_self, if_true]
      · have : ¬ (g.isize ≤ k ∧ k < g.isize + ((n + 1 : Nat) : Int)) := by push_cast; omega
        simp only [h2, this, if_false]

theorem init_copy_loop_snd (src : gmx_ana_pos_t) (lo hi : Int)
    (st : out_pos_t × gmx_ana_index_t) :
    (for_loop lo hi (init_copy_step src) st).2
      = append_slice st.2 src.g.index lo (hi - lo).toNat := by
  rw [← eval_copy_loop]
  exact for_loop_hom Prod.snd lo hi (init_copy_step src) (eval_copy_step src)
    (fun _ _ => rfl) st

/-! ## Layout: the part of the output shared by initialization and evaluation -/

theorem lay_evaluate_append_pos (out : out_pos_t) (g : gmx_ana_index_t) (src : gmx_ana_pos_t)
    (i refid : Int) :
    lay (evaluate_append_pos out g src i refid) = lay_append (lay (out, g)) (src, i) := by
  simp only [evaluate_append_pos, lay, lay_append, eval_copy_loop, particle_slice, slice_length]
  split <;> simp [append_slice]

theorem lay_init_output_append_pos (out : out_pos_t) (g : gmx_ana_index_t)
    (src : gmx_ana_pos_t) (i : Int) :
    lay (init_output_append_pos out g src i) = lay_append (lay (out, g)) (src, i) := by
  have hx : ∀ st : out_pos_t × gmx_ana_index_t,
      (for_loop (src.m.mapb.index i) (src.m.mapb.index (i + 1)) (init_copy_step src) st).1.x
        = st.1.x :=
    fun st => for_loop_frame (fun st : out_pos_t × gmx_ana_index_t => st.1.x) _ _ (init_copy_step src)
      (fun _ _ => rfl) st
  have hnr : ∀ st : out_pos_t × gmx_ana_index_t,
      (for_loop (src.m.mapb.index i) (src.m.mapb.index (i + 1)) (init_copy_step src) st).1.nr
        = st.1.nr :=
    fun st => for_loop_frame (fun st : out_pos_t × gmx_ana_index_t => st.1.nr) _ _ (init_copy_step src)
      (fun _ _ => rfl) st
  have hmapb : ∀ st : out_pos_t × gmx_ana_index_t,
      (for_loop (src.m.mapb.index i) (src.m.mapb.index (i + 1)) (init_copy_step src) st).1.m.mapb
        = st.1.m.mapb :=
    fun st => for_loop_frame (fun st : out_pos_t × gmx_ana_index_t => st.1.m.mapb) _ _ (init_copy_step src)
      (fun _ _ => rfl) st
  simp only [init_output_append_pos, lay, lay_append, init_copy_loop_snd, particle_slice,
    slice_length, hx, hnr, hmapb]
  simp [append_slice]

theorem represents_nil (L : layout) (h1 : L.nr = 0) (h2 : L.mapb 0 = 0) (h3 : L.g.isize = 0) :
    Represents L [] where
  nr_eq := by simp [h1]
  mapb_zero := h2
  mapb_last := by rw [h1, h2, h3]
  mapb_mono := by intro t ht; simp at ht
  mapb_bound := by
    intro t ht
    have : t = 0 := by simpa using ht
    subst this
    simp [h2, h3]
  pos := by intro t src h; simp at h
  group := by simp [h3, slice]

theorem append_slice_index_low (g : gmx_ana_index_t) (a : Int → Int) (lo : Int) (n : Nat)
    {k : Int} (h : k < g.isize) : (append_slice g a lo n).index k = g.index k := by
  have : ¬ (g.isize ≤ k ∧ k < g.isize + (n : Int)) := by omega
  simp [append_slice, this]

theorem append_slice_new (g : gmx_ana_index_t) (src : gmx_ana_pos_t × Int) :
    slice (append_slice g src.1.g.index (src.1.m.mapb.index src.2)
        (particle_slice src).length).index g.isize
      (g.isize + ((particle_slice src).length : Int)) = particle_slice src := by
  have hl : (particle_slice src).length
      = (src.1.m.mapb.index (src.2 + 1) - src.1.m.mapb.index src.2).toNat := slice_length _ _ _
  rw [hl]
  unfold particle_slice slice
  have e : (g.isize + ((src.1.m.mapb.index (src.2 + 1) - src.1.m.mapb.index src.2).toNat : Int)
      - g.isize).toNat = (src.1.m.mapb.index (src.2 + 1) - src.1.m.mapb.index src.2).toNat := by
    omega
  rw [e]
  apply List.map_congr_left
  intro t ht
  have ht2 := List.mem_range.mp ht
  have c : g.isize ≤ g.isize + (t : Int) ∧ g.isize + (t : Int)
      < g.isize + ((src.1.m.mapb.index (src.2 + 1) - src.1.m.mapb.index src.2).toNat : Int) := by
    omega
  simp only [append_slice, c, and_self, if_true]
  congr 1
  omega

theorem represents_append {L : layout} {srcs : List (gmx_ana_pos_t × Int)}
    (h : Represents L srcs) (src : gmx_ana_pos_t × Int) :
    Represents (lay_append L src) (srcs ++ [src]) := by
  have hnr := h.nr_eq
  have hlast := h.mapb_last
  have hb0 := (h.mapb_bound srcs.length (le_refl _)).1
  rw [← hnr, hlast] at hb0
  refine ⟨?_, ?_, ?_, ?_, ?_, ?_, ?_⟩
  · simp [lay_append, hnr]
  · have : (0 : Int) ≠ L.nr + 1 := by omega
    simp only [lay_append, upd_other _ _ this, h.mapb_zero]
  · simp [lay_append, append_slice]
  · intro t ht
    simp only [List.length_append, List.length_singleton] at ht
    by_cases hc : t < srcs.length
    · have e1 : (t : Int) ≠ L.nr + 1 := by omega
      have e2 : (t : Int) + 1 ≠ L.nr + 1 := by omega
      simp only [lay_append, upd_other _ _ e1, upd_other _ _ e2]
      exact h.mapb_mono t hc
    · have e0 : (t : Int) = L.nr := by omega
      have e1 : (t : Int) ≠ L.nr + 1 := by omega
      simp only [lay_append, upd_other _ _ e1]
      rw [e0, upd_same, hlast]
      omega
  · intro t ht
    simp only [List.length_append, List.length_singleton] at ht
    by_cases hc : t ≤ srcs.length
    · have e1 : (t : Int) ≠ L.nr + 1 := by omega
      have := h.mapb_bound t hc
      simp only [lay_append, upd_other _ _ e1, append_slice]
      omega
    · have e0 : (t : Int) = L.nr + 1 := by omega
      simp only [lay_append, append_slice]
      rw [e0, upd_same]
      omega
  · intro t s hs
    by_cases hc : t < srcs.length
    · rw [List.getElem?_append_left hc] at hs
      obtain ⟨hx, hsl⟩ := h.pos t s hs
      have e0 : (t : Int) ≠ L.nr := by omega
      have e1 : (t : Int) ≠ L.nr + 1 := by omega
      have e2 : (t : Int) + 1 ≠ L.nr + 1 := by omega
      have hb := (h.mapb_bound (t + 1) (by omega)).2
      simp only [Nat.cast_add, Nat.cast_one] at hb
      simp only [lay_append, upd_other _ _ e0, upd_other _ _ e1, upd_other _ _ e2]
      refine ⟨hx, ?_⟩
      rw [← hsl]
      apply slice_congr
      intro k _ hk
      exact append_slice_index_low _ _ _ _ (by omega)
    · have hlen : (srcs ++ [src]).length = srcs.length + 1 := by simp
      have hlt : t < (srcs ++ [src]).length := by
        by_contra hn
        rw [List.getElem?_eq_none (by omega)] at hs
        exact Option.noConfusion hs
      have ht : t = srcs.length := by omega
      subst ht
      rw [List.getElem?_concat_length] at hs
      have hs2 : src = s := Option.some.inj hs
      subst hs2
      have e1 : (srcs.length : Int) ≠ L.nr + 1 := by omega
      simp only [lay_append, upd_other _ _ e1]
      rw [← hnr, upd_same, upd_same, hlast]
      exact ⟨rfl, append_slice_new L.g src⟩
  · have hsplit := slice_append (append_slice L.g src.1.g.index (src.1.m.mapb.index src.2)
        (particle_slice src).length).index hb0
        (show L.g.isize ≤ L.g.isize + ((particle_slice src).length : Int) by omega)
    simp only [lay_append, List.flatMap_append, List.flatMap_cons, List.flatMap_nil,
      List.append_nil]
    have hsz : (append_slice L.g src.1.g.index (src.1.m.mapb.index src.2)
        (particle_slice src).length).isize = L.g.isize + ((particle_slice src).length : Int) := rfl
    rw [hsz, hsplit, append_slice_new, ← h.group]
    congr 1
    apply slice_congr
    intro k _ hk
    exact append_slice_index_low _ _ _ _ hk

theorem represents_foldl (srcs : List (gmx_ana_pos_t × Int)) :
    ∀ (L : layout) (done : List (gmx_ana_pos_t × Int)), Represents L done →
      Represents (List.foldl lay_append L srcs) (done ++ srcs) := by
  induction srcs with
  | nil => intro L done h; simpa using h
  | cons s rest ih =>
    intro L done h
    have := ih (lay_append L s) (done ++ [s]) (represents_append h s)
    simpa using this

/-! ## The loop nests as folds over the visiting order -/

theorem merge_loops_eq_foldl {σ α : Type} (step : σ → α → σ) (n s : Int) (a b : Int → α)
    (s0 : σ) :
    for_loop 0 n (fun i st => step (for_loop 0 s (fun j st => step st (a (s * i + j))) st) (b i)) s0
      = List.foldl step s0 (merge_order n s a b) := by
  unfold merge_order
  rw [foldl_flatMap]
  simp only [for_loop, sub_zero, zero_add, List.foldl_append, List.foldl_map, List.foldl_cons,
    List.foldl_nil]

theorem plus_loops_eq_foldl {σ α : Type} (step : σ → α → σ) (na nb : Int) (a b : Int → α)
    (s0 : σ) :
    for_loop 0 nb (fun i st => step st (b i)) (for_loop 0 na (fun i st => step st (a i)) s0)
      = List.foldl step s0 (plus_order na nb a b) := by
  unfold plus_order
  simp only [for_loop, sub_zero, zero_add, List.foldl_append, List.foldl_map]

theorem merge_order_map {α β : Type} (f : α → β) (n s : Int) (a b : Int → α) :
    (merge_order n s a b).map f = merge_order n s (fun k => f (a k)) (fun k => f (b k)) := by
  simp [merge_order, List.map_flatMap, Function.comp_def]

theorem plus_order_map {α β : Type} (f : α → β) (na nb : Int) (a b : Int → α) :
    (plus_order na nb a b).map f = plus_order na nb (fun k => f (a k)) (fun k => f (b k)) := by
  simp [plus_order, Function.comp_def]

theorem flatMap_range_length {α : Type} (f : Nat → List α) (m : Nat)
    (hf : ∀ i, (f i).length = m) (n : Nat) : ((List.range n).flatMap f).length = n * m := by
  induction n with
  | zero => simp
  | succ n ih =>
    rw [List.range_succ, List.flatMap_append, List.length_append, ih]
    simp [hf, Nat.succ_mul]

theorem flatMap_range_get {α : Type} (f : Nat → List α) (m : Nat)
    (hf : ∀ i, (f i).length = m) (n i j : Nat) (hi : i < n) (hj : j < m) :
    ((List.range n).flatMap f)[i * m + j]? = (f i)[j]? := by
  induction n with
  | zero => omega
  | succ n ih =>
    rw [List.range_succ, List.flatMap_append]
    have hlen := flatMap_range_length f m hf n
    by_cases hc : i < n
    · have hlt : i * m + j < ((List.range n).flatMap f).length := by
        rw [hlen]
        calc i * m + j < i * m + m := by omega
          _ = (i + 1) * m := by ring
          _ ≤ n * m := Nat.mul_le_mul_right m hc
      rw [List.getElem?_append_left hlt]
      exact ih hc
    · have hin : i = n := by omega
      subst hin
      rw [List.getElem?_append_right (by rw [hlen]; omega), hlen]
      simp

theorem merge_order_length {α : Type} (n s : Int) (a b : Int → α) :
    (merge_order n s a b).length = n.toNat * (s.toNat + 1) := by
  unfold merge_order
  apply flatMap_range_length
  intro i
  simp

theorem merge_order_get_a {α : Type} (n s : Int) (a b : Int → α) (i j : Nat)
    (hi : i < n.toNat) (hj : j < s.toNat) :
    (merge_order n s a b)[i * (s.toNat + 1) + j]? = some (a (s * (i : Int) + (j : Int))) := by
  unfold merge_order
  rw [flatMap_range_get _ (s.toNat + 1) (by intro i; simp) _ i j hi (by omega)]
  rw [List.getElem?_append_left (by simpa using hj)]
  simp [hj]

theorem merge_order_get_b {α : Type} (n s : Int) (a b : Int → α) (i : Nat)
    (hi : i < n.toNat) :
    (merge_order n s a b)[i * (s.toNat + 1) + s.toNat]? = some (b (i : Int)) := by
  unfold merge_order
  rw [flatMap_range_get _ (s.toNat + 1) (by intro i; simp) _ i s.toNat hi (by omega)]
  rw [List.getElem?_append_right (by simp)]
  simp

theorem plus_order_length {α : Type} (na nb : Int) (a b : Int → α) :
    (plus_order na nb a b).length = na.toNat + nb.toNat := by
  simp [plus_order]

theorem plus_order_get_a {α : Type} (na nb : Int) (a b : Int → α) (i : Nat)
    (hi : i < na.toNat) : (plus_order na nb a b)[i]? = some (a (i : Int)) := by
  unfold plus_order
  rw [List.getElem?_append_left (by simpa using hi)]
  simp [hi]

theorem plus_order_get_b {α : Type} (na nb : Int) (a b : Int → α) (i : Nat)
    (hi : i < nb.toNat) : (plus_order na nb a b)[na.toNat + i]? = some (b (i : Int)) := by
  unfold plus_order
  rw [List.getElem?_append_right (by simp)]
  simp [hi]

theorem merge_order_get_a_int {α : Type} (n s : Int) (a b : Int → α) (i j : Int)
    (hi0 : 0 ≤ i) (hi : i < n) (hj0 : 0 ≤ j) (hj : j < s) :
    ∃ t : Nat, (t : Int) = (s + 1) * i + j ∧ (merge_order n s a b)[t]? = some (a (s * i + j)) := by
  refine ⟨i.toNat * (s.toNat + 1) + j.toNat, ?_, ?_⟩
  · have h1 : ((i.toNat : Nat) : Int) = i := Int.toNat_of_nonneg hi0
    have h2 : ((j.toNat : Nat) : Int) = j := Int.toNat_of_nonneg hj0
    have h3 : ((s.toNat : Nat) : Int) = s := Int.toNat_of_nonneg (by omega)
    push_cast
    rw [h1, h2, h3]
    ring
  · rw [merge_order_get_a n s a b i.toNat j.toNat (by omega) (by omega)]
    rw [Int.toNat_of_nonneg hi0, Int.toNat_of_nonneg hj0]

theorem merge_order_get_b_int {α : Type} (n s : Int) (a b : Int → α) (i : Int)
    (hi0 : 0 ≤ i) (hi : i < n) (hs : 0 ≤ s) :
    ∃ t : Nat, (t : Int) = (s + 1) * i + s ∧ (merge_order n s a b)[t]? = some (b i) := by
  refine ⟨i.toNat * (s.toNat + 1) + s.toNat, ?_, ?_⟩
  · have h1 : ((i.toNat : Nat) : Int) = i := Int.toNat_of_nonneg hi0
    have h3 : ((s.toNat : Nat) : Int) = s := Int.toNat_of_nonneg hs
    push_cast
    rw [h1, h3]
    ring
  · rw [merge_order_get_b n s a b i.toNat (by omega)]
    rw [Int.toNat_of_nonneg hi0]

theorem plus_order_get_a_int {α : Type} (na nb : Int) (a b : Int → α) (k : Int)
    (hk0 : 0 ≤ k) (hk : k < na) :
    ∃ t : Nat, (t : Int) = k ∧ (plus_order na nb a b)[t]? = some (a k) := by
  refine ⟨k.toNat, Int.toNat_of_nonneg hk0, ?_⟩
  rw [plus_order_get_a na nb a b k.toNat (by omega), Int.toNat_of_nonneg hk0]

theorem plus_order_get_b_int {α : Type} (na nb : Int) (a b : Int → α) (i : Int)
    (hna : 0 ≤ na) (hi0 : 0 ≤ i) (hi : i < nb) :
    ∃ t : Nat, (t : Int) = na + i ∧ (plus_order na nb a b)[t]? = some (b i) := by
  refine ⟨na.toNat + i.toNat, ?_, ?_⟩
  · push_cast
    rw [Int.toNat_of_nonneg hna, Int.toNat_of_nonneg hi0]
  · rw [plus_order_get_b na nb a b i.toNat (by omega), Int.toNat_of_nonneg hi0]

/-! ## Evaluation and initialization as folds -/

theorem evaluate_merge_err (out : out_pos_t) (d : t_methoddata_merge)
    (h : d.p1.nr ≠ d.stride * d.p2.nr) :
    evaluate_merge out d = { ret := -1, out := out, data := d } := by
  simp [evaluate_merge, h]

theorem evaluate_merge_ok (out : out_pos_t) (d : t_methoddata_merge)
    (h : d.p1.nr = d.stride * d.p2.nr) :
    evaluate_merge out d =
      { ret := 0
        out := (eval_state out d (merge_appends d)).1
        data := { (evaluate_common out d).2 with g := (eval_state out d (merge_appends d)).2 } } := by
  have hl := merge_loops_eq_foldl eval_step d.p2.nr d.stride
    (fun k => (d.p1, k, merge_refid_p1 d k)) (fun i => (d.p2, i, merge_refid_p2 d i))
    ((evaluate_common out d).1, (evaluate_common out d).2.g)
  simp only [evaluate_merge, h, ne_eq, not_true_eq_false, if_false]
  simp only [eval_state, merge_appends, ← hl, eval_step]

theorem evaluate_plus_eq (out : out_pos_t) (d : t_methoddata_merge) :
    evaluate_plus out d =
      { ret := 0
        out := (eval_state out d (plus_appends d)).1
        data := { (evaluate_common out d).2 with g := (eval_state out d (plus_appends d)).2 } } := by
  have hl := plus_loops_eq_foldl eval_step d.p1.nr d.p2.nr
    (fun i => (d.p1, i, d.p1.m.refid i)) (fun i => (d.p2, i, plus_refid_p2 d i))
    ((evaluate_common out d).1, (evaluate_common out d).2.g)
  simp only [evaluate_plus, eval_state, plus_appends, ← hl, eval_step]

theorem init_output_plus_eq (out : out_pos_t) (d : t_methoddata_merge) :
    init_output_plus out d =
      { ret := 0
        out := (init_state out d (plus_sources d)).1
        data := { (init_output_common out d).2 with g := (init_state out d (plus_sources d)).2 } } := by
  have hl := plus_loops_eq_foldl init_step d.p1.nr d.p2.nr
    (fun i => (d.p1, i)) (fun i => (d.p2, i))
    ((init_output_common out d).1, (init_output_common out d).2.g)
  simp only [init_output_plus, init_state, plus_sources, ← hl, init_step]

theorem init_output_merge_none (out : out_pos_t) (d : t_methoddata_merge)
    (h : d.stride = 0 ∧ d.p2.nr = 0) : init_output_merge out d = none := by
  simp [init_output_merge, h]

theorem init_output_merge_err (out : out_pos_t) (d : t_methoddata_merge)
    (h : ¬ (d.stride = 0 ∧ d.p2.nr = 0))
    (hne : (settle_stride d).p1.nr ≠ (settle_stride d).stride * (settle_stride d).p2.nr) :
    init_output_merge out d = some { ret := -1, out := out, data := settle_stride d } := by
  simp only [init_output_merge, h, if_false]
  simp only [settle_stride] at hne
  simp only [settle_stride, hne, ne_eq, not_false_eq_true, if_true]

theorem init_output_merge_ok (out : out_pos_t) (d : t_methoddata_merge)
    (h : ¬ (d.stride = 0 ∧ d.p2.nr = 0))
    (heq : (settle_stride d).p1.nr = (settle_stride d).stride * (settle_stride d).p2.nr) :
    init_output_merge out d = some
      { ret := 0
        out := (init_state out (settle_stride d) (merge_sources (settle_stride d))).1
        data := { (init_output_common out (settle_stride d)).2 with
                  g := (init_state out (settle_stride d) (merge_sources (settle_stride d))).2 } } := by
  have hl := merge_loops_eq_foldl init_step (settle_stride d).p2.nr (settle_stride d).stride
    (fun k => ((settle_stride d).p1, k)) (fun i => ((settle_stride d).p2, i))
    ((init_output_common out (settle_stride d)).1, (init_output_common out (settle_stride d)).2.g)
  simp only [init_output_merge, h, if_false]
  simp only [init_state, merge_sources, ← hl, init_step]
  simp only [settle_stride] at heq
  simp only [settle_stride, heq, ne_eq, not_true_eq_false, if_false]

theorem lay_foldl_eval (l : List (gmx_ana_pos_t × Int × Int)) :
    ∀ st : out_pos_t × gmx_ana_index_t,
      lay (List.foldl eval_step st l)
        = List.foldl lay_append (lay st) (l.map (fun a => (a.1, a.2.1))) := by
  induction l with
  | nil => intro st; rfl
  | cons a rest ih =>
    intro st
    simp only [List.foldl_cons, List.map_cons, ih]
    congr 1
    exact lay_evaluate_append_pos st.1 st.2 a.1 a.2.1 a.2.2

theorem lay_foldl_init (l : List (gmx_ana_pos_t × Int)) :
    ∀ st : out_pos_t × gmx_ana_index_t,
      lay (List.foldl init_step st l) = List.foldl lay_append (lay st) l := by
  induction l with
  | nil => intro st; rfl
  | cons a rest ih =>
    intro st
    simp only [List.foldl_cons, ih]
    congr 1
    exact lay_init_output_append_pos st.1 st.2 a.1 a.2

theorem represents_eval_state (out : out_pos_t) (d : t_methoddata_merge)
    (l : List (gmx_ana_pos_t × Int × Int)) :
    Represents (lay (eval_state out d l)) (l.map (fun a => (a.1, a.2.1))) := by
  unfold eval_state
  rw [lay_foldl_eval]
  have h0 : Represents (lay ((evaluate_common out d).1, (evaluate_common out d).2.g)) [] :=
    represents_nil _ rfl (by simp [lay, evaluate_common]) rfl
  simpa using represents_foldl (l.map (fun a => (a.1, a.2.1))) _ [] h0

theorem represents_init_state (out : out_pos_t) (d : t_methoddata_merge)
    (l : List (gmx_ana_pos_t × Int)) :
    Represents (lay (init_state out d l)) l := by
  unfold init_state
  rw [lay_foldl_init]
  have h0 : Represents (lay ((init_output_common out d).1, (init_output_common out d).2.g)) [] :=
    represents_nil _ rfl (by simp [lay, init_output_common]) rfl
  simpa using represents_foldl l _ [] h0

theorem merge_appends_sources (d : t_methoddata_merge) :
    (merge_appends d).map (fun a => (a.1, a.2.1)) = merge_sources d := by
  simp [merge_appends, merge_sources, merge_order_map]

theorem plus_appends_sources (d : t_methoddata_merge) :
    (plus_appends d).map (fun a => (a.1, a.2.1)) = plus_sources d := by
  simp [plus_appends, plus_sources, plus_order_map]

theorem represents_merge (out : out_pos_t) (d : t_methoddata_merge) :
    Represents (lay (eval_state out d (merge_appends d))) (merge_sources d) := by
  simpa [merge_appends_sources] using represents_eval_state out d (merge_appends d)

theorem represents_plus (out : out_pos_t) (d : t_methoddata_merge) :
    Represents (lay (eval_state out d (plus_appends d))) (plus_sources d) := by
  simpa [plus_appends_sources] using represents_eval_state out d (plus_appends d)

/-! ## Reference ids under evaluation -/

theorem eval_step_nr (st : out_pos_t × gmx_ana_index_t) (a : gmx_ana_pos_t × Int × Int) :
    (eval_step st a).1.nr = st.1.nr + 1 := rfl

theorem eval_step_refid (st : out_pos_t × gmx_ana_index_t) (a : gmx_ana_pos_t × Int × Int) :
    (eval_step st a).1.m.refid
      = upd st.1.m.refid st.1.nr (if a.2.2 < 0 then -1 else a.2.2) := by
  simp only [eval_step, evaluate_append_pos]
  split <;> rfl

theorem eval_fold_nr (l : List (gmx_ana_pos_t × Int × Int)) :
    ∀ st : out_pos_t × gmx_ana_index_t,
      (List.foldl eval_step st l).1.nr = st.1.nr + (l.length : Int) := by
  induction l with
  | nil => intro st; simp
  | cons a rest ih =>
    intro st
    simp only [List.foldl_cons, ih, eval_step_nr, List.length_cons]
    push_cast
    ring

theorem eval_fold_refid_frame (l : List (gmx_ana_pos_t × Int × Int)) :
    ∀ (st : out_pos_t × gmx_ana_index_t) (k : Int), k < st.1.nr →
      (List.foldl eval_step st l).1.m.refid k = st.1.m.refid k := by
  induction l with
  | nil => intro st k _; rfl
  | cons a rest ih =>
    intro st k hk
    simp only [List.foldl_cons]
    rw [ih (eval_step st a) k (by rw [eval_step_nr]; omega), eval_step_refid]
    exact upd_other _ _ (by omega)

/-- After a run of appends, slot `nr + t` holds the reference id passed by append
number `t`, with every negative value replaced by `-1`. -/
theorem eval_fold_refid (l : List (gmx_ana_pos_t × Int × Int)) :
    ∀ (st : out_pos_t × gmx_ana_index_t) (t : Nat) (a : gmx_ana_pos_t × Int × Int),
      l[t]? = some a →
      (List.foldl eval_step st l).1.m.refid (st.1.nr + (t : Int))
        = if a.2.2 < 0 then -1 else a.2.2 := by
  induction l with
  | nil => intro st t a h; simp at h
  | cons b rest ih =>
    intro st t a h
    simp only [List.foldl_cons]
    cases t with
    | zero =>
      simp only [List.getElem?_cons_zero, Option.some.injEq] at h
      subst h
      rw [eval_fold_refid_frame rest (eval_step st b) _ (by rw [eval_step_nr]; simp)]
      rw [eval_step_refid]
      simp
    | succ t =>
      simp only [List.getElem?_cons_succ] at h
      have := ih (eval_step st b) t a h
      rw [eval_step_nr] at this
      rw [← this]
      congr 1
      push_cast
      ring

/-! ## Consequences of the representation invariant -/

theorem represents_mono_int {L : layout} {srcs : List (gmx_ana_pos_t × Int)}
    (h : Represents L srcs) (k : Int) (hk0 : 0 ≤ k) (hk : k < L.nr) :
    L.mapb k ≤ L.mapb (k + 1) := by
  have := h.mapb_mono k.toNat (by have := h.nr_eq; omega)
  rwa [Int.toNat_of_nonneg hk0] at this

theorem merge_sources_length (d : t_methoddata_merge) (hA : 0 ≤ d.p1.nr) (hB : 0 ≤ d.p2.nr)
    (h : d.p1.nr = d.stride * d.p2.nr) :
    ((merge_sources d).length : Int) = (d.stride + 1) * d.p2.nr := by
  unfold merge_sources
  rw [merge_order_length]
  push_cast
  rw [Int.toNat_of_nonneg hB]
  by_cases hn : d.p2.nr = 0
  · simp [hn]
  · have hs : 0 ≤ d.stride := by
      by_contra hneg
      have h1 : d.stride ≤ -1 := by omega
      have h2 : 1 ≤ d.p2.nr := by omega
      nlinarith
    rw [Int.toNat_of_nonneg hs]
    ring

theorem plus_sources_length (d : t_methoddata_merge) (hA : 0 ≤ d.p1.nr) (hB : 0 ≤ d.p2.nr) :
    ((plus_sources d).length : Int) = d.p1.nr + d.p2.nr := by
  unfold plus_sources
  rw [plus_order_length]
  push_cast
  rw [Int.toNat_of_nonneg hA, Int.toNat_of_nonneg hB]

theorem eval_state_refid (out : out_pos_t) (d : t_methoddata_merge)
    (l : List (gmx_ana_pos_t × Int × Int)) (t : Nat) (a : gmx_ana_pos_t × Int × Int)
    (h : l[t]? = some a) :
    (eval_state out d l).1.m.refid (t : Int) = if a.2.2 < 0 then -1 else a.2.2 := by
  have := eval_fold_refid l ((evaluate_common out d).1, (evaluate_common out d).2.g) t a h
  have h0 : ((evaluate_common out d).1, (evaluate_common out d).2.g).1.nr = 0 := rfl
  rw [h0, zero_add] at this
  exact this

theorem settle_stride_of_ne (d : t_methoddata_merge) (h : d.stride ≠ 0) :
    settle_stride d = d := by
  simp [settle_stride, h]

theorem evaluate_merge_ret_zero (out : out_pos_t) (d : t_methoddata_merge) :
    (evaluate_merge out d).ret = 0 ↔ d.p1.nr = d.stride * d.p2.nr := by
  by_cases h : d.p1.nr = d.stride * d.p2.nr
  · simp [evaluate_merge_ok out d h, h]
  · simp [evaluate_merge_err out d h, h]

/-! ## Machine integers: basic facts -/

theorem wrap_int_of_fits {x : Int} (h : fits_int x) : wrap_int x = x := by
  unfold fits_int at h
  unfold wrap_int
  omega

theorem wrap_int_fits (x : Int) : fits_int (wrap_int x) := by
  unfold fits_int wrap_int
  omega

theorem wrap_int_add_mul (x t : Int) : wrap_int (x + 4294967296 * t) = wrap_int x := by
  unfold wrap_int
  omega

theorem wrap_int_spec (x : Int) : ∃ t : Int, wrap_int x = x + 4294967296 * t := by
  refine ⟨-((x + 2147483648) / 4294967296), ?_⟩
  unfold wrap_int
  omega

theorem wrap_int_mul_left (a b : Int) : wrap_int (wrap_int a * b) = wrap_int (a * b) := by
  obtain ⟨t, ht⟩ := wrap_int_spec a
  rw [ht]
  have e : (a + 4294967296 * t) * b = a * b + 4294967296 * (t * b) := by ring
  rw [e, wrap_int_add_mul]

theorem wrap_int_add_left (a b : Int) : wrap_int (wrap_int a + b) = wrap_int (a + b) := by
  obtain ⟨t, ht⟩ := wrap_int_spec a
  rw [ht]
  have e : a + 4294967296 * t + b = a + b + 4294967296 * t := by ring
  rw [e, wrap_int_add_mul]

theorem wrap_int_le_of_nonneg {x : Int} (h : 0 ≤ x) : wrap_int x ≤ x := by
  unfold wrap_int
  omega

/-- The `int` expression `(s+1) * q + m` is the integer `(s+1) * q + m` reduced to an
`int`, whatever the intermediate results. -/
theorem int_remap (s q m : Int) :
    int_add (int_mul (int_add s 1) q) m = wrap_int ((s + 1) * q + m) := by
  unfold int_add int_mul
  rw [wrap_int_mul_left, wrap_int_add_left]

theorem merge_refid_p1_eq (d : t_methoddata_merge) (k : Int) (hne : d.p1.m.refid k ≠ -1) :
    merge_refid_p1 d k = wrap_int (remap_p1 d.stride (d.p1.m.refid k)) := by
  simp only [merge_refid_p1, ne_eq, hne, not_false_eq_true, if_true, int_remap, remap_p1]

theorem merge_refid_p1_sentinel (d : t_methoddata_merge) (k : Int)
    (he : d.p1.m.refid k = -1) : merge_refid_p1 d k = -1 := by
  simp [merge_refid_p1, he]

theorem merge_refid_p2_eq (d : t_methoddata_merge) (i : Int) :
    merge_refid_p2 d i = wrap_int (remap_p2 d.stride (d.p2.m.refid i)) := by
  simp only [merge_refid_p2, int_remap, remap_p2]

theorem plus_refid_p2_eq (d : t_methoddata_merge) (i : Int) (hne : d.p2.m.refid i ≠ -1) :
    plus_refid_p2 d i = wrap_int (d.p2.m.refid i + d.p1.m.b.nr) := by
  simp only [plus_refid_p2, ne_eq, hne, not_false_eq_true, if_true, int_add]

theorem remap_p1_nonneg (s r : Int) (hs : 1 ≤ s) (hr : 0 ≤ r) : 0 ≤ remap_p1 s r := by
  unfold remap_p1
  have hq : 0 ≤ Int.tdiv r s := Int.tdiv_nonneg hr (by omega)
  have hm : 0 ≤ Int.tmod r s := Int.tmod_nonneg _ hr
  have := mul_nonneg (show (0 : Int) ≤ s + 1 by omega) hq
  omega

theorem remap_p1_neg (s r : Int) (hs : 1 ≤ s) (hr : r < 0) : remap_p1 s r < 0 := by
  unfold remap_p1
  have e2 := Int.tmod_add_tdiv (-r) s
  have e3 : Int.tdiv (-r) s = -Int.tdiv r s := Int.neg_tdiv _ _
  have e1 := Int.tmod_add_tdiv r s
  have e4 : 0 ≤ Int.tdiv (-r) s := Int.tdiv_nonneg (by omega) (by omega)
  have e5 : 0 ≤ Int.tmod (-r) s := Int.tmod_nonneg _ (by omega)
  rw [e3] at e2 e4
  nlinarith

theorem remap_p2_neg (s r : Int) (hs : 0 ≤ s) (hr : r < 0) : remap_p2 s r < 0 := by
  unfold remap_p2
  nlinarith

theorem remap_p1_eq_ediv (s r : Int) (hs : 1 ≤ s) (hr : 0 ≤ r) :
    remap_p1 s r = (s + 1) * (r / s) + r % s := by
  unfold remap_p1
  rw [Int.tdiv_eq_ediv hr (by omega), Int.tmod_eq_emod hr (by omega)]

/-! ## The functions with the size test in machine arithmetic -/

theorem evaluate_merge32_eq (out : out_pos_t) (d : t_methoddata_merge)
    (hfit : fits_int (d.stride * d.p2.nr)) : evaluate_merge32 out d = evaluate_merge out d := by
  simp only [evaluate_merge32, evaluate_merge, int_mul, wrap_int_of_fits hfit]

theorem evaluate_merge32_ret (out : out_pos_t) (d : t_methoddata_merge) :
    ((evaluate_merge32 out d).ret = -1 ↔ d.p1.nr ≠ int_mul d.stride d.p2.nr) ∧
    ((evaluate_merge32 out d).ret = 0 ↔ d.p1.nr = int_mul d.stride d.p2.nr) := by
  by_cases h : d.p1.nr = int_mul d.stride d.p2.nr
  · simp [evaluate_merge32, h]
  · simp [evaluate_merge32, h]

theorem init_output_merge32_eq (out : out_pos_t) (d : t_methoddata_merge) (hs : d.stride ≠ 0)
    (hfit : fits_int (d.stride * d.p2.nr)) :
    init_output_merge32 out d = init_output_merge out d := by
  simp only [init_output_merge32, init_output_merge, hs, if_false, int_mul,
    wrap_int_of_fits hfit]

theorem tdiv_mul_nonneg (a b : Int) (ha : 0 ≤ a) :
    0 ≤ Int.tdiv a b * b ∧ Int.tdiv a b * b ≤ a := by
  have key : ∀ c : Int, 0 ≤ c → 0 ≤ Int.tdiv a c * c ∧ Int.tdiv a c * c ≤ a := by
    intro c hc
    rw [Int.tdiv_eq_ediv ha hc]
    by_cases h0 : c = 0
    · subst h0
      simp [ha]
    · exact ⟨mul_nonneg (Int.ediv_nonneg ha hc) hc, Int.ediv_mul_le a h0⟩
  by_cases hb : 0 ≤ b
  · exact key b hb
  · have := key (-b) (by omega)
    have e : Int.tdiv a b * b = Int.tdiv a (-b) * (-b) := by
      rw [Int.tdiv_neg]
      ring
    rw [e]
    exact this

/-- The product of a truncated quotient with the divisor lies between zero and the
dividend, so it is representable as an `int` when the dividend is. -/
theorem tdiv_mul_fits (a b : Int) (ha : fits_int a) : fits_int (Int.tdiv a b * b) := by
  unfold fits_int at ha ⊢
  by_cases h : 0 ≤ a
  · have := tdiv_mul_nonneg a b h
    omega
  · have := tdiv_mul_nonneg (-a) b (by omega)
    rw [Int.neg_tdiv] at this
    have e : -Int.tdiv a b * b = -(Int.tdiv a b * b) := by ring
    rw [e] at this
    omega

/-- When the stride is deduced (`stride = 0` on entry) the product of the size test is
representable whenever `p1.nr` is, so the two readings of the test agree. -/
theorem init_output_merge32_eq_derive (out : out_pos_t) (d : t_methoddata_merge)
    (hs : d.stride = 0) (hfit : fits_int d.p1.nr) :
    init_output_merge32 out d = init_output_merge out d := by
  have hw : int_mul (Int.tdiv d.p1.nr d.p2.nr) d.p2.nr = Int.tdiv d.p1.nr d.p2.nr * d.p2.nr :=
    wrap_int_of_fits (tdiv_mul_fits d.p1.nr d.p2.nr hfit)
  simp only [init_output_merge32, init_output_merge, hs, if_true, true_and, hw]

theorem init_output_merge32_explicit (out : out_pos_t) (d : t_methoddata_merge)
    (hs : 1 ≤ d.stride) :
    ∃ r : call_result, init_output_merge32 out d = some r ∧ r.data.stride = d.stride ∧
      (r.ret = -1 ↔ d.p1.nr ≠ int_mul d.stride d.p2.nr) ∧
      (r.ret = 0 ↔ d.p1.nr = int_mul d.stride d.p2.nr) := by
  have hs0 : ¬ d.stride = 0 := by omega
  by_cases h : d.p1.nr = int_mul d.stride d.p2.nr
  · simp only [init_output_merge32, hs0, false_and, if_false, h, ne_eq, not_true_eq_false]
    exact ⟨_, rfl, rfl, by simp, by simp⟩
  · simp only [init_output_merge32, hs0, false_and, if_false, h, ne_eq, not_false_eq_true,
      if_true]
    exact ⟨_, rfl, rfl, by simp, by simp⟩

theorem evaluate_merge_count (out : out_pos_t) (d : t_methoddata_merge)
    (hA : 0 ≤ d.p1.nr) (hB : 0 ≤ d.p2.nr) (h : d.p1.nr = d.stride * d.p2.nr) :
    (evaluate_merge out d).out.nr = (d.stride + 1) * d.p2.nr := by
  have hr := (represents_merge out d).nr_eq
  rw [merge_sources_length d hA hB h] at hr
  rw [evaluate_merge_ok out d h]
  exact hr

/-! ## The claims -/

/-- C2: after a successful `evaluate_merge` on a `p1` with non-negative count, for every
block `i` in `[0, p2.nr)` and every `j` in `[0, stride)` the output coordinate at
`(stride+1)*i + j` is the coordinate of `p1` at `stride*i + j`, and the output coordinate
at `(stride+1)*i + stride` is the coordinate of `p2` at `i`.  For stride 1 the output is
`A0, B0, A1, B1, ...`; for 4 and 2 positions with stride 2 it is `A0, A1, B0, A2, A3, B1`. -/
theorem evaluate_merge_order (out : out_pos_t) (d : t_methoddata_merge)
    (hA : 0 ≤ d.p1.nr) (hok : (evaluate_merge out d).ret = 0) :
    (∀ i j : Int, 0 ≤ i → i < d.p2.nr → 0 ≤ j → j < d.stride →
      (evaluate_merge out d).out.x ((d.stride + 1) * i + j) = d.p1.x (d.stride * i + j)) ∧
    (∀ i : Int, 0 ≤ i → i < d.p2.nr →
      (evaluate_merge out d).out.x ((d.stride + 1) * i + d.stride) = d.p2.x i) ∧
    (d.stride = 1 → ∀ i : Int, 0 ≤ i → i < d.p2.nr →
      (evaluate_merge out d).out.x (2 * i) = d.p1.x i ∧
      (evaluate_merge out d).out.x (2 * i + 1) = d.p2.x i) ∧
    (d.p1.nr = 4 → d.p2.nr = 2 → d.stride = 2 →
      (evaluate_merge out d).out.x 0 = d.p1.x 0 ∧
      (evaluate_merge out d).out.x 1 = d.p1.x 1 ∧
      (evaluate_merge out d).out.x 2 = d.p2.x 0 ∧
      (evaluate_merge out d).out.x 3 = d.p1.x 2 ∧
      (evaluate_merge out d).out.x 4 = d.p1.x 3 ∧
      (evaluate_merge out d).out.x 5 = d.p2.x 1) := by
  have h : d.p1.nr = d.stride * d.p2.nr := (evaluate_merge_ret_zero out d).mp hok
  have hrep := represents_merge out d
  have gA : ∀ i j : Int, 0 ≤ i → i < d.p2.nr → 0 ≤ j → j < d.stride →
      (evaluate_merge out d).out.x ((d.stride + 1) * i + j) = d.p1.x (d.stride * i + j) := by
    intro i j hi0 hi hj0 hj
    obtain ⟨t, ht, hget⟩ := merge_order_get_a_int d.p2.nr d.stride
      (fun k => (d.p1, k)) (fun i => (d.p2, i)) i j hi0 hi hj0 hj
    have := (hrep.pos t _ hget).1
    rw [ht] at this
    rw [evaluate_merge_ok out d h]
    exact this
  have gB : ∀ i : Int, 0 ≤ i → i < d.p2.nr →
      (evaluate_merge out d).out.x ((d.stride + 1) * i + d.stride) = d.p2.x i := by
    intro i hi0 hi
    have hs : 0 ≤ d.stride := by
      by_contra hneg
      have h1 : d.stride ≤ -1 := by omega
      have h2 : 1 ≤ d.p2.nr := by omega
      nlinarith
    obtain ⟨t, ht, hget⟩ := merge_order_get_b_int d.p2.nr d.stride
      (fun k => (d.p1, k)) (fun i => (d.p2, i)) i hi0 hi hs
    have := (hrep.pos t _ hget).1
    rw [ht] at this
    rw [evaluate_merge_ok out d h]
    exact this
  refine ⟨gA, gB, ?_, ?_⟩
  · intro hs i hi0 hi
    have a := gA i 0 hi0 hi (le_refl _) (by omega)
    have b := gB i hi0 hi
    rw [hs] at a b
    norm_num at a b
    exact ⟨a, b⟩
  · intro _ hn hs
    have a0 := gA 0 0 (by omega) (by omega) (by omega) (by omega)
    have a1 := gA 0 1 (by omega) (by omega) (by omega) (by omega)
    have a2 := gA 1 0 (by omega) (by omega) (by omega) (by omega)
    have a3 := gA 1 1 (by omega) (by omega) (by omega) (by omega)
    have b0 := gB 0 (by omega) (by omega)
    have b1 := gB 1 (by omega) (by omega)
    rw [hs] at a0 a1 a2 a3 b0 b1
    norm_num at a0 a1 a2 a3 b0 b1
    exact ⟨a0, a1, b0, a2, a3, b1⟩

theorem evaluate_merge_order_witness :
    (evaluate_merge sample_out (sample_data 4 2 2)).out.x ((2 + 1) * 1 + 2)
      = (sample_data 4 2 2).p2.x 1 :=
  (evaluate_merge_order sample_out (sample_data 4 2 2) (by decide) (by decide)).2.1 1
    (by decide) (by decide)

/-- C3: `evaluate_plus` always returns success, with no relation between the sizes
required, and for non-negative counts `a = p1.nr` and `b = p2.nr` the output position
count is `a + b`. -/
theorem evaluate_plus_count (out : out_pos_t) (d : t_methoddata_merge) :
    (evaluate_plus out d).ret = 0 ∧
    (0 ≤ d.p1.nr → 0 ≤ d.p2.nr → (evaluate_plus out d).out.nr = d.p1.nr + d.p2.nr) := by
  rw [evaluate_plus_eq]
  refine ⟨rfl, ?_⟩
  intro hA hB
  have hr := (represents_plus out d).nr_eq
  rw [plus_sources_length d hA hB] at hr
  exact hr

theorem evaluate_plus_count_witness :
    (evaluate_plus sample_out (sample_data 4 2 0)).out.nr
      = (sample_data 4 2 0).p1.nr + (sample_data 4 2 0).p2.nr :=
  (evaluate_plus_count sample_out (sample_data 4 2 0)).2 (by decide) (by decide)

/-- C4: after `evaluate_plus` with counts `a = p1.nr` and `b = p2.nr`, output position
`k` is a copy (coordinate and particle slice) of position `k` of `p1` for `0 <= k < a`,
and, for non-negative `a`, of position `k - a` of `p2` for `a <= k < a + b`; the call does
not read the stride: changing it changes neither the return code, the output nor the
output group. -/
theorem evaluate_plus_order (out : out_pos_t) (d : t_methoddata_merge) :
    (∀ k : Int, 0 ≤ k → k < d.p1.nr →
      (evaluate_plus out d).out.x k = d.p1.x k ∧
      slice (evaluate_plus out d).data.g.index ((evaluate_plus out d).out.m.mapb.index k)
          ((evaluate_plus out d).out.m.mapb.index (k + 1)) = particle_slice (d.p1, k)) ∧
    (0 ≤ d.p1.nr → ∀ k : Int, d.p1.nr ≤ k → k < d.p1.nr + d.p2.nr →
      (evaluate_plus out d).out.x k = d.p2.x (k - d.p1.nr) ∧
      slice (evaluate_plus out d).data.g.index ((evaluate_plus out d).out.m.mapb.index k)
          ((evaluate_plus out d).out.m.mapb.index (k + 1))
        = particle_slice (d.p2, k - d.p1.nr)) ∧
    (∀ s : Int,
      (evaluate_plus out { d with stride := s }).ret = (evaluate_plus out d).ret ∧
      (evaluate_plus out { d with stride := s }).out = (evaluate_plus out d).out ∧
      (evaluate_plus out { d with stride := s }).data.g = (evaluate_plus out d).data.g) := by
  have hrep := represents_plus out d
  refine ⟨?_, ?_, ?_⟩
  · intro k hk0 hk
    obtain ⟨t, ht, hget⟩ := plus_order_get_a_int d.p1.nr d.p2.nr
      (fun i => (d.p1, i)) (fun i => (d.p2, i)) k hk0 hk
    have := hrep.pos t _ hget
    rw [ht] at this
    rw [evaluate_plus_eq]
    exact this
  · intro hA k hk1 hk2
    obtain ⟨t, ht, hget⟩ := plus_order_get_b_int d.p1.nr d.p2.nr
      (fun i => (d.p1, i)) (fun i => (d.p2, i)) (k - d.p1.nr) hA (by omega) (by omega)
    have := hrep.pos t _ hget
    have e : d.p1.nr + (k - d.p1.nr) = k := by ring
    rw [ht, e] at this
    rw [evaluate_plus_eq]
    exact this
  · intro s
    exact ⟨rfl, rfl, rfl⟩

theorem evaluate_plus_order_witness :
    (evaluate_plus sample_out (sample_data 4 2 2)).out.x 5
        = (sample_data 4 2 2).p2.x (5 - (sample_data 4 2 2).p1.nr) ∧
      slice (evaluate_plus sample_out (sample_data 4 2 2)).data.g.index
          ((evaluate_plus sample_out (sample_data 4 2 2)).out.m.mapb.index 5)
          ((evaluate_plus sample_out (sample_data 4 2 2)).out.m.mapb.index (5 + 1))
        = particle_slice ((sample_data 4 2 2).p2, 5 - (sample_data 4 2 2).p1.nr) :=
  (evaluate_plus_order sample_out (sample_data 4 2 2)).2.1 (by decide) 5 (by decide) (by decide)

/-- C5: when the stride is unset (0) and `p2.nr >= 1`, `init_output_merge` returns, and
it returns success exactly when `p1.nr` is a multiple of `p2.nr` (the error code `-1`
otherwise); on success the stored stride is the integer quotient `p1.nr / p2.nr`.
Counts 4 and 2 give stride 2. -/
theorem init_output_merge_derive (out : out_pos_t) (d : t_methoddata_merge)
    (h0 : d.stride = 0) (hb : 1 ≤ d.p2.nr) :
    ∃ r : call_result, init_output_merge out d = some r ∧
      (r.ret = 0 ↔ d.p2.nr ∣ d.p1.nr) ∧
      (r.ret = -1 ↔ ¬ d.p2.nr ∣ d.p1.nr) ∧
      (r.ret = 0 → r.data.stride = d.p1.nr / d.p2.nr ∧
        r.data.stride = Int.tdiv d.p1.nr d.p2.nr) ∧
      (d.p1.nr = 4 → d.p2.nr = 2 → r.ret = 0 ∧ r.data.stride = 2) := by
  have hnz : ¬ (d.stride = 0 ∧ d.p2.nr = 0) := by omega
  have hst : (settle_stride d).stride = Int.tdiv d.p1.nr d.p2.nr := by simp [settle_stride, h0]
  have hp1 : (settle_stride d).p1 = d.p1 := by simp [settle_stride, h0]
  have hp2 : (settle_stride d).p2 = d.p2 := by simp [settle_stride, h0]
  have hdiv : d.p1.nr = Int.tdiv d.p1.nr d.p2.nr * d.p2.nr ↔ d.p2.nr ∣ d.p1.nr :=
    ⟨fun e => Dvd.intro_left _ e.symm, fun hd => (Int.tdiv_mul_cancel hd).symm⟩
  have hq : d.p2.nr ∣ d.p1.nr → Int.tdiv d.p1.nr d.p2.nr = d.p1.nr / d.p2.nr := by
    intro hd
    have e := Int.tdiv_mul_cancel hd
    have e2 := Int.ediv_mul_cancel hd
    have hne : d.p2.nr ≠ 0 := by omega
    exact mul_right_cancel₀ hne (e.trans e2.symm)
  have hex : d.p1.nr = 4 → d.p2.nr = 2 → d.p2.nr ∣ d.p1.nr ∧ Int.tdiv d.p1.nr d.p2.nr = 2 := by
    intro e1 e2
    rw [e1, e2]
    decide
  by_cases hd : d.p2.nr ∣ d.p1.nr
  · have heq : (settle_stride d).p1.nr = (settle_stride d).stride * (settle_stride d).p2.nr := by
      rw [hst, hp1, hp2]
      exact hdiv.mpr hd
    refine ⟨_, init_output_merge_ok out d hnz heq, by simp [hd], by simp [hd], ?_, ?_⟩
    · intro _
      have e : (init_output_common out (settle_stride d)).2.stride = (settle_stride d).stride := rfl
      exact ⟨by simp only [e, hst, hq hd], by simp only [e, hst]⟩
    · intro e1 e2
      have e : (init_output_common out (settle_stride d)).2.stride = (settle_stride d).stride := rfl
      exact ⟨rfl, by simp only [e, hst, (hex e1 e2).2]⟩
  · have hne : (settle_stride d).p1.nr ≠ (settle_stride d).stride * (settle_stride d).p2.nr := by
      rw [hst, hp1, hp2]
      exact fun e => hd (hdiv.mp e)
    refine ⟨_, init_output_merge_err out d hnz hne, by simp [hd], by simp [hd], ?_, ?_⟩
    · intro hret
      simp at hret
    · intro e1 e2
      exact absurd (hex e1 e2).1 hd

theorem init_output_merge_derive_witness :
    ∃ r : call_result, init_output_merge sample_out (sample_data 4 2 0) = some r ∧
      (r.ret = 0 ↔ (sample_data 4 2 0).p2.nr ∣ (sample_data 4 2 0).p1.nr) ∧
      (r.ret = -1 ↔ ¬ (sample_data 4 2 0).p2.nr ∣ (sample_data 4 2 0).p1.nr) ∧
      (r.ret = 0 → r.data.stride = (sample_data 4 2 0).p1.nr / (sample_data 4 2 0).p2.nr ∧
        r.data.stride = Int.tdiv (sample_data 4 2 0).p1.nr (sample_data 4 2 0).p2.nr) ∧
      ((sample_data 4 2 0).p1.nr = 4 → (sample_data 4 2 0).p2.nr = 2 →
        r.ret = 0 ∧ r.data.stride = 2) :=
  init_output_merge_derive sample_out (sample_data 4 2 0) (by decide) (by decide)

/-- C7: `init_merge` returns the error code `-1` exactly when the stride is negative and
`0` for every stride `>= 0`; `init_data_merge` leaves the stride at the unset value 0,
every data with that stride is accepted, and a stride of `-1` is rejected. -/
theorem init_merge_stride (d : t_methoddata_merge) (npar : Int) (p1 p2 : gmx_ana_pos_t) :
    ((init_merge d).1 = -1 ↔ d.stride < 0) ∧
    ((init_merge d).1 = 0 ↔ 0 ≤ d.stride) ∧
    (init_data_merge npar p1 p2).stride = 0 ∧
    (init_merge { d with stride := (init_data_merge npar p1 p2).stride }).1 = 0 ∧
    (init_merge { d with stride := -1 }).1 = -1 := by
  refine ⟨?_, ?_, rfl, rfl, rfl⟩
  · by_cases h : d.stride < 0 <;> simp [init_merge, h]
  · by_cases h : d.stride < 0
    · simp [init_merge, h]
    · simp [init_merge, h]
      omega

/-- C8: after a successful `evaluate_merge`, and after `evaluate_plus`, the output has one
position per appended source position; the first `g.isize` entries of the output group are
the concatenation, in the order of the appends, of the particle slices of the appended
source positions (duplicates kept); and for every output position `k` the slice of the
output group between the output boundaries `mapb.index[k]` and `mapb.index[k+1]` is the
particle slice of the source position whose coordinate was copied into slot `k`. -/
theorem backing_index_preserved (out : out_pos_t) (d : t_methoddata_merge) :
    ((evaluate_merge out d).ret = 0 →
      (evaluate_merge out d).out.nr = ((merge_sources d).length : Int) ∧
      slice (evaluate_merge out d).data.g.index 0 (evaluate_merge out d).data.g.isize
        = (merge_sources d).flatMap particle_slice ∧
      ∀ (k : Nat) (src : gmx_ana_pos_t × Int), (merge_sources d)[k]? = some src →
        (evaluate_merge out d).out.x (k : Int) = src.1.x src.2 ∧
        slice (evaluate_merge out d).data.g.index
            ((evaluate_merge out d).out.m.mapb.index (k : Int))
            ((evaluate_merge out d).out.m.mapb.index ((k : Int) + 1))
          = particle_slice src) ∧
    ((evaluate_plus out d).out.nr = ((plus_sources d).length : Int) ∧
      slice (evaluate_plus out d).data.g.index 0 (evaluate_plus out d).data.g.isize
        = (plus_sources d).flatMap particle_slice ∧
      ∀ (k : Nat) (src : gmx_ana_pos_t × Int), (plus_sources d)[k]? = some src →
        (evaluate_plus out d).out.x (k : Int) = src.1.x src.2 ∧
        slice (evaluate_plus out d).data.g.index
            ((evaluate_plus out d).out.m.mapb.index (k : Int))
            ((evaluate_plus out d).out.m.mapb.index ((k : Int) + 1))
          = particle_slice src) := by
  constructor
  · intro hok
    have h : d.p1.nr = d.stride * d.p2.nr := (evaluate_merge_ret_zero out d).mp hok
    have hrep := represents_merge out d
    rw [evaluate_merge_ok out d h]
    exact ⟨hrep.nr_eq, hrep.group, hrep.pos⟩
  · have hrep := represents_plus out d
    rw [evaluate_plus_eq]
    exact ⟨hrep.nr_eq, hrep.group, hrep.pos⟩

theorem backing_index_preserved_witness :
    (evaluate_merge sample_out (sample_data 4 2 2)).out.x ((2 : Nat) : Int)
        = (sample_data 4 2 2).p2.x 0 ∧
      slice (evaluate_merge sample_out (sample_data 4 2 2)).data.g.index
          ((evaluate_merge sample_out (sample_data 4 2 2)).out.m.mapb.index ((2 : Nat) : Int))
          ((evaluate_merge sample_out (sample_data 4 2 2)).out.m.mapb.index (((2 : Nat) : Int) + 1))
        = particle_slice ((sample_data 4 2 2).p2, 0) :=
  ((backing_index_preserved sample_out (sample_data 4 2 2)).1 (by decide)).2.2 2
    ((sample_data 4 2 2).p2, 0) rfl

/-- C9: after a successful `init_output_merge`, after `init_output_plus`, after a
successful `evaluate_merge` and after `evaluate_plus`, the output range boundaries satisfy
`mapb.index[0] = 0` and `mapb.index[k] <= mapb.index[k+1]` for every `k` from 0 below the
output count, whatever the inputs (their own boundaries need not be ordered). -/
theorem mapb_boundaries_ordered (out : out_pos_t) (d : t_methoddata_merge) :
    (∀ r : call_result, init_output_merge out d = some r → r.ret = 0 →
      r.out.m.mapb.index 0 = 0 ∧
      ∀ k : Int, 0 ≤ k → k < r.out.nr → r.out.m.mapb.index k ≤ r.out.m.mapb.index (k + 1)) ∧
    ((init_output_plus out d).out.m.mapb.index 0 = 0 ∧
      ∀ k : Int, 0 ≤ k → k < (init_output_plus out d).out.nr →
        (init_output_plus out d).out.m.mapb.index k
          ≤ (init_output_plus out d).out.m.mapb.index (k + 1)) ∧
    ((evaluate_merge out d).ret = 0 →
      (evaluate_merge out d).out.m.mapb.index 0 = 0 ∧
      ∀ k : Int, 0 ≤ k → k < (evaluate_merge out d).out.nr →
        (evaluate_merge out d).out.m.mapb.index k
          ≤ (evaluate_merge out d).out.m.mapb.index (k + 1)) ∧
    ((evaluate_plus out d).out.m.mapb.index 0 = 0 ∧
      ∀ k : Int, 0 ≤ k → k < (evaluate_plus out d).out.nr →
        (evaluate_plus out d).out.m.mapb.index k
          ≤ (evaluate_plus out d).out.m.mapb.index (k + 1)) := by
  refine ⟨?_, ?_, ?_, ?_⟩
  · intro r hr hret
    by_cases hnz : d.stride = 0 ∧ d.p2.nr = 0
    · rw [init_output_merge_none out d hnz] at hr
      exact Option.noConfusion hr
    · by_cases heq : (settle_stride d).p1.nr = (settle_stride d).stride * (settle_stride d).p2.nr
      · rw [init_output_merge_ok out d hnz heq] at hr
        have hrep := represents_init_state out (settle_stride d) (merge_sources (settle_stride d))
        rw [← Option.some.inj hr]
        exact ⟨hrep.mapb_zero, fun k hk0 hk => represents_mono_int hrep k hk0 hk⟩
      · rw [init_output_merge_err out d hnz heq] at hr
        rw [← Option.some.inj hr] at hret
        simp at hret
  · have hrep := represents_init_state out d (plus_sources d)
    rw [init_output_plus_eq]
    exact ⟨hrep.mapb_zero, fun k hk0 hk => represents_mono_int hrep k hk0 hk⟩
  · intro hok
    have h : d.p1.nr = d.stride * d.p2.nr := (evaluate_merge_ret_zero out d).mp hok
    have hrep := represents_merge out d
    rw [evaluate_merge_ok out d h]
    exact ⟨hrep.mapb_zero, fun k hk0 hk => represents_mono_int hrep k hk0 hk⟩
  · have hrep := represents_plus out d
    rw [evaluate_plus_eq]
    exact ⟨hrep.mapb_zero, fun k hk0 hk => represents_mono_int hrep k hk0 hk⟩

theorem mapb_boundaries_ordered_witness :
    (evaluate_merge sample_out (sample_data 4 2 2)).out.m.mapb.index 0 = 0 ∧
      (evaluate_merge sample_out (sample_data 4 2 2)).out.m.mapb.index 5
        ≤ (evaluate_merge sample_out (sample_data 4 2 2)).out.m.mapb.index (5 + 1) :=
  ⟨((mapb_boundaries_ordered sample_out (sample_data 4 2 2)).2.2.1 (by decide)).1,
   ((mapb_boundaries_ordered sample_out (sample_data 4 2 2)).2.2.1 (by decide)).2 5
     (by decide) (by decide)⟩

/-- C10, as stated, fails: with stride 1 and the source reference id `2^30` in `p1` the
code computes `2 * 2^30`, which is `INT_MIN` as an `int`, and stores `-1`, not
`(s+1) * (r / s) + (r % s) = 2^31`. -/
theorem merge_refid_from_p1_counterexample :
    ¬ (∀ (out : out_pos_t) (d : t_methoddata_merge) (i j : Int),
        1 ≤ d.stride → (evaluate_merge out d).ret = 0 →
        0 ≤ i → i < d.p2.nr → 0 ≤ j → j < d.stride →
        0 ≤ d.p1.m.refid (d.stride * i + j) →
        (evaluate_merge out d).out.m.refid ((d.stride + 1) * i + j)
          = (d.stride + 1) * (d.p1.m.refid (d.stride * i + j) / d.stride)
            + d.p1.m.refid (d.stride * i + j) % d.stride) := by
  intro hall
  have h := hall sample_out big_ref_data 0 0 (by decide) (by decide) (by decide) (by decide)
    (by decide) (by decide) (by decide)
  have h2 : (evaluate_merge sample_out big_ref_data).out.m.refid
      ((big_ref_data.stride + 1) * 0 + 0) = -1 := by decide
  rw [h2] at h
  exact absurd h (by decide)

/-- C10 (amended): in a successful `evaluate_merge` with stride `s >= 1`, for every block
`i` in `[0, p2.nr)` and `j` in `[0, s)` such that the source reference id
`r = p1.m.refid[s*i + j]` is non-negative and `(s+1) * (r / s) + (r % s)` does not exceed
`INT_MAX`, the output reference id at slot `(s+1)*i + j` is `(s+1) * (r / s) + (r % s)`;
the C quotient and remainder used by the code agree there with the integer quotient and
remainder. -/
theorem merge_refid_from_p1 (out : out_pos_t) (d : t_methoddata_merge)
    (hs : 1 ≤ d.stride) (hok : (evaluate_merge out d).ret = 0) (i j : Int)
    (hi0 : 0 ≤ i) (hi : i < d.p2.nr) (hj0 : 0 ≤ j) (hj : j < d.stride)
    (hr : 0 ≤ d.p1.m.refid (d.stride * i + j))
    (hfit : (d.stride + 1) * (d.p1.m.refid (d.stride * i + j) / d.stride)
      + d.p1.m.refid (d.stride * i + j) % d.stride ≤ 2147483647) :
    (evaluate_merge out d).out.m.refid ((d.stride + 1) * i + j)
        = (d.stride + 1) * (d.p1.m.refid (d.stride * i + j) / d.stride)
          + d.p1.m.refid (d.stride * i + j) % d.stride ∧
      (evaluate_merge out d).out.m.refid ((d.stride + 1) * i + j)
        = (d.stride + 1) * Int.tdiv (d.p1.m.refid (d.stride * i + j)) d.stride
          + Int.tmod (d.p1.m.refid (d.stride * i + j)) d.stride := by
  have h : d.p1.nr = d.stride * d.p2.nr := (evaluate_merge_ret_zero out d).mp hok
  obtain ⟨t, ht, hget⟩ := merge_order_get_a_int d.p2.nr d.stride
    (fun k => (d.p1, k, merge_refid_p1 d k)) (fun i => (d.p2, i, merge_refid_p2 d i))
    i j hi0 hi hj0 hj
  have hslot := eval_state_refid out d (merge_appends d) t _ hget
  rw [ht] at hslot
  have hne : d.p1.m.refid (d.stride * i + j) ≠ -1 := by omega
  have hed := remap_p1_eq_ediv d.stride (d.p1.m.refid (d.stride * i + j)) hs hr
  have hnn := remap_p1_nonneg d.stride (d.p1.m.refid (d.stride * i + j)) hs hr
  have hval : merge_refid_p1 d (d.stride * i + j)
      = remap_p1 d.stride (d.p1.m.refid (d.stride * i + j)) := by
    rw [merge_refid_p1_eq d _ hne]
    exact wrap_int_of_fits ⟨by omega, by rw [hed]; exact hfit⟩
  have hpos : ¬ merge_refid_p1 d (d.stride * i + j) < 0 := by
    rw [hval]
    omega
  simp only [hpos, if_false] at hslot
  have key : (evaluate_merge out d).out.m.refid ((d.stride + 1) * i + j)
      = remap_p1 d.stride (d.p1.m.refid (d.stride * i + j)) := by
    rw [evaluate_merge_ok out d h]
    exact hslot.trans hval
  exact ⟨key.trans hed, key⟩

theorem merge_refid_from_p1_witness :
    (evaluate_merge sample_out (sample_data 4 2 2)).out.m.refid (((sample_data 4 2 2).stride + 1) * 1 + 1)
        = ((sample_data 4 2 2).stride + 1)
            * ((sample_data 4 2 2).p1.m.refid ((sample_data 4 2 2).stride * 1 + 1)
                / (sample_data 4 2 2).stride)
          + (sample_data 4 2 2).p1.m.refid ((sample_data 4 2 2).stride * 1 + 1)
              % (sample_data 4 2 2).stride ∧
      (evaluate_merge sample_out (sample_data 4 2 2)).out.m.refid (((sample_data 4 2 2).stride + 1) * 1 + 1)
        = ((sample_data 4 2 2).stride + 1)
            * Int.tdiv ((sample_data 4 2 2).p1.m.refid ((sample_data 4 2 2).stride * 1 + 1))
                (sample_data 4 2 2).stride
          + Int.tmod ((sample_data 4 2 2).p1.m.refid ((sample_data 4 2 2).stride * 1 + 1))
              (sample_data 4 2 2).stride :=
  merge_refid_from_p1 sample_out (sample_data 4 2 2) (by decide) (by decide) 1 1
    (by decide) (by decide) (by decide) (by decide) (by decide) (by decide)

/-! ## Reference ids per output slot -/

theorem merge_stride_nonneg (d : t_methoddata_merge) (hA : 0 ≤ d.p1.nr)
    (h : d.p1.nr = d.stride * d.p2.nr) (hn : 1 ≤ d.p2.nr) : 0 ≤ d.stride := by
  by_contra hneg
  have h1 : d.stride ≤ -1 := by omega
  nlinarith

theorem merge_slot_refid_a (out : out_pos_t) (d : t_methoddata_merge)
    (h : d.p1.nr = d.stride * d.p2.nr) (i j : Int)
    (hi0 : 0 ≤ i) (hi : i < d.p2.nr) (hj0 : 0 ≤ j) (hj : j < d.stride) :
    (evaluate_merge out d).out.m.refid ((d.stride + 1) * i + j)
      = if merge_refid_p1 d (d.stride * i + j) < 0 then -1
        else merge_refid_p1 d (d.stride * i + j) := by
  obtain ⟨t, ht, hget⟩ := merge_order_get_a_int d.p2.nr d.stride
    (fun k => (d.p1, k, merge_refid_p1 d k)) (fun i => (d.p2, i, merge_refid_p2 d i))
    i j hi0 hi hj0 hj
  have hslot := eval_state_refid out d (merge_appends d) t _ hget
  rw [ht] at hslot
  rw [evaluate_merge_ok out d h]
  exact hslot

theorem merge_slot_refid_b (out : out_pos_t) (d : t_methoddata_merge)
    (h : d.p1.nr = d.stride * d.p2.nr) (hs : 0 ≤ d.stride) (i : Int)
    (hi0 : 0 ≤ i) (hi : i < d.p2.nr) :
    (evaluate_merge out d).out.m.refid ((d.stride + 1) * i + d.stride)
      = if merge_refid_p2 d i < 0 then -1 else merge_refid_p2 d i := by
  obtain ⟨t, ht, hget⟩ := merge_order_get_b_int d.p2.nr d.stride
    (fun k => (d.p1, k, merge_refid_p1 d k)) (fun i => (d.p2, i, merge_refid_p2 d i))
    i hi0 hi hs
  have hslot := eval_state_refid out d (merge_appends d) t _ hget
  rw [ht] at hslot
  rw [evaluate_merge_ok out d h]
  exact hslot

theorem plus_slot_refid_a (out : out_pos_t) (d : t_methoddata_merge) (k : Int)
    (hk0 : 0 ≤ k) (hk : k < d.p1.nr) :
    (evaluate_plus out d).out.m.refid k
      = if d.p1.m.refid k < 0 then -1 else d.p1.m.refid k := by
  obtain ⟨t, ht, hget⟩ := plus_order_get_a_int d.p1.nr d.p2.nr
    (fun i => (d.p1, i, d.p1.m.refid i)) (fun i => (d.p2, i, plus_refid_p2 d i)) k hk0 hk
  have hslot := eval_state_refid out d (plus_appends d) t _ hget
  rw [ht] at hslot
  rw [evaluate_plus_eq]
  exact hslot

theorem plus_slot_refid_b (out : out_pos_t) (d : t_methoddata_merge) (hA : 0 ≤ d.p1.nr)
    (i : Int) (hi0 : 0 ≤ i) (hi : i < d.p2.nr) :
    (evaluate_plus out d).out.m.refid (d.p1.nr + i)
      = if plus_refid_p2 d i < 0 then -1 else plus_refid_p2 d i := by
  obtain ⟨t, ht, hget⟩ := plus_order_get_b_int d.p1.nr d.p2.nr
    (fun i => (d.p1, i, d.p1.m.refid i)) (fun i => (d.p2, i, plus_refid_p2 d i)) i hA hi0 hi
  have hslot := eval_state_refid out d (plus_appends d) t _ hget
  rw [ht] at hslot
  rw [evaluate_plus_eq]
  exact hslot

/-- The reference id passed for a negative source id of `p1` is negative, when the
remapped id does not fall below `INT_MIN`. -/
theorem merge_refid_p1_neg (d : t_methoddata_merge) (hs : 1 ≤ d.stride) (k : Int)
    (hr : d.p1.m.refid k < 0)
    (hfit : -2147483648 ≤ remap_p1 d.stride (d.p1.m.refid k)) : merge_refid_p1 d k < 0 := by
  by_cases h1 : d.p1.m.refid k = -1
  · rw [merge_refid_p1_sentinel d k h1]
    omega
  · have hv := remap_p1_neg d.stride (d.p1.m.refid k) hs hr
    rw [merge_refid_p1_eq d k h1, wrap_int_of_fits ⟨hfit, by omega⟩]
    exact hv

/-- The reference id passed for a negative source id of `p2` is negative, when
`(s+1) * r + s` does not fall below `INT_MIN`. -/
theorem merge_refid_p2_neg (d : t_methoddata_merge) (hs : 0 ≤ d.stride) (i : Int)
    (hr : d.p2.m.refid i < 0)
    (hfit : -2147483648 ≤ remap_p2 d.stride (d.p2.m.refid i)) : merge_refid_p2 d i < 0 := by
  have hv := remap_p2_neg d.stride (d.p2.m.refid i) hs hr
  rw [merge_refid_p2_eq d i, wrap_int_of_fits ⟨hfit, by omega⟩]
  exact hv

theorem merge_refid_p2_sentinel (d : t_methoddata_merge) (i : Int)
    (he : d.p2.m.refid i = -1) : merge_refid_p2 d i = -1 := by
  rw [merge_refid_p2_eq d i, he]
  have e : remap_p2 d.stride (-1) = -1 := by
    unfold remap_p2
    ring
  rw [e]
  rfl

/-- A slot below `(s+1)*n` lies in a block `i` at an offset `j <= s`. -/
theorem merge_slot_cases (n s k : Int) (hs : 0 ≤ s) (hk0 : 0 ≤ k) (hk : k < (s + 1) * n) :
    ∃ i j : Int, 0 ≤ i ∧ i < n ∧ 0 ≤ j ∧ j ≤ s ∧ k = (s + 1) * i + j := by
  have hpos : 0 < s + 1 := by omega
  refine ⟨k / (s + 1), k % (s + 1), Int.ediv_nonneg hk0 (by omega), ?_,
    Int.emod_nonneg _ (by omega), ?_, (Int.ediv_add_emod k (s + 1)).symm⟩
  · exact Int.ediv_lt_of_lt_mul hpos (by rw [mul_comm]; exact hk)
  · have := Int.emod_lt_of_pos k hpos
    omega

theorem merge_out_nr (out : out_pos_t) (d : t_methoddata_merge)
    (h : d.p1.nr = d.stride * d.p2.nr) :
    (evaluate_merge out d).out.nr = (d.p2.nr.toNat : Int) * ((d.stride.toNat : Int) + 1) := by
  have hr := (represents_merge out d).nr_eq
  rw [evaluate_merge_ok out d h]
  have hl : (merge_sources d).length = d.p2.nr.toNat * (d.stride.toNat + 1) :=
    merge_order_length _ _ _ _
  rw [hl] at hr
  push_cast at hr
  exact hr

theorem merge_slot_below (out : out_pos_t) (d : t_methoddata_merge)
    (h : d.p1.nr = d.stride * d.p2.nr) (hs : 0 ≤ d.stride) (k : Int) (hk0 : 0 ≤ k)
    (hk : k < (evaluate_merge out d).out.nr) : k < (d.stride + 1) * d.p2.nr := by
  rw [merge_out_nr out d h, Int.toNat_of_nonneg hs] at hk
  by_cases hn : 0 ≤ d.p2.nr
  · rw [Int.toNat_of_nonneg hn] at hk
    rw [mul_comm]
    exact hk
  · have : d.p2.nr.toNat = 0 := by omega
    rw [this] at hk
    simp at hk
    omega

theorem tdiv_tmod_block (s i j : Int) (hs : 1 ≤ s) (hi0 : 0 ≤ i) (hj0 : 0 ≤ j) (hj : j < s) :
    Int.tdiv (s * i + j) s = i ∧ Int.tmod (s * i + j) s = j := by
  have hnn : 0 ≤ s * i + j := by
    have := mul_nonneg (show (0 : Int) ≤ s by omega) hi0
    omega
  have hs0 : (0 : Int) ≤ s := by omega
  rw [Int.tdiv_eq_ediv hnn hs0, Int.tmod_eq_emod hnn hs0]
  have e : s * i + j = j + s * i := by ring
  rw [e, Int.add_mul_ediv_left _ _ (by omega), Int.add_mul_emod_self_left,
    Int.ediv_eq_zero_of_lt hj0 hj, Int.emod_eq_of_lt hj0 hj]
  omega

theorem merge_index_in_p1 (d : t_methoddata_merge) (h : d.p1.nr = d.stride * d.p2.nr)
    (i j : Int) (hi0 : 0 ≤ i) (hi : i < d.p2.nr) (hj0 : 0 ≤ j) (hj : j < d.stride) :
    0 ≤ d.stride * i + j ∧ d.stride * i + j < d.p1.nr := by
  have h1 := mul_nonneg (show (0 : Int) ≤ d.stride by omega) hi0
  have h2 : d.stride * (i + 1) ≤ d.stride * d.p2.nr :=
    mul_le_mul_of_nonneg_left (by omega) (by omega)
  rw [h]
  constructor
  · omega
  · have e : d.stride * (i + 1) = d.stride * i + d.stride := by ring
    omega

/-- C11, as stated, fails: with stride 1 and the source reference id `2^30` in `p2` the
code computes `2 * 2^30 + 1`, which is `INT_MIN + 1` as an `int`, and stores `-1`, not
`(s+1) * r + s = 2^31 + 1`. -/
theorem merge_refid_from_p2_counterexample :
    ¬ (∀ (out : out_pos_t) (d : t_methoddata_merge) (i : Int),
        0 ≤ d.p1.nr → (evaluate_merge out d).ret = 0 →
        0 ≤ i → i < d.p2.nr → 0 ≤ d.p2.m.refid i →
        (evaluate_merge out d).out.m.refid ((d.stride + 1) * i + d.stride)
          = (d.stride + 1) * d.p2.m.refid i + d.stride) := by
  intro hall
  have h := hall sample_out big_ref_data 0 (by decide) (by decide) (by decide) (by decide)
    (by decide)
  have h2 : (evaluate_merge sample_out big_ref_data).out.m.refid
      ((big_ref_data.stride + 1) * 0 + big_ref_data.stride) = -1 := by decide
  rw [h2] at h
  exact absurd h (by decide)

/-- C11 (amended): in a successful `evaluate_merge` on a `p1` with non-negative count, for
every block `i` in `[0, p2.nr)` whose source reference id `r = p2.m.refid[i]` is
non-negative and for which `(s+1) * r + s` does not exceed `INT_MAX`, the output
reference id at slot `(s+1)*i + s` is `(s+1) * r + s`. -/
theorem merge_refid_from_p2 (out : out_pos_t) (d : t_methoddata_merge)
    (hA : 0 ≤ d.p1.nr) (hok : (evaluate_merge out d).ret = 0) (i : Int)
    (hi0 : 0 ≤ i) (hi : i < d.p2.nr) (hr : 0 ≤ d.p2.m.refid i)
    (hfit : (d.stride + 1) * d.p2.m.refid i + d.stride ≤ 2147483647) :
    (evaluate_merge out d).out.m.refid ((d.stride + 1) * i + d.stride)
      = (d.stride + 1) * d.p2.m.refid i + d.stride := by
  have h : d.p1.nr = d.stride * d.p2.nr := (evaluate_merge_ret_zero out d).mp hok
  have hs : 0 ≤ d.stride := merge_stride_nonneg d hA h (by omega)
  rw [merge_slot_refid_b out d h hs i hi0 hi]
  have hnn : 0 ≤ (d.stride + 1) * d.p2.m.refid i + d.stride := by
    have := mul_nonneg (show (0 : Int) ≤ d.stride + 1 by omega) hr
    omega
  have hv : merge_refid_p2 d i = (d.stride + 1) * d.p2.m.refid i + d.stride := by
    rw [merge_refid_p2_eq d i]
    exact wrap_int_of_fits ⟨by unfold remap_p2; omega, hfit⟩
  rw [hv]
  have hn2 : ¬ (d.stride + 1) * d.p2.m.refid i + d.stride < 0 := by omega
  simp only [hn2, if_false]

theorem merge_refid_from_p2_witness :
    (evaluate_merge sample_out (sample_data 4 2 2)).out.m.refid
        (((sample_data 4 2 2).stride + 1) * 1 + (sample_data 4 2 2).stride)
      = ((sample_data 4 2 2).stride + 1) * (sample_data 4 2 2).p2.m.refid 1
        + (sample_data 4 2 2).stride :=
  merge_refid_from_p2 sample_out (sample_data 4 2 2) (by decide) (by decide) 1
    (by decide) (by decide) (by decide) (by decide)

/-- C12, as stated, fails: with stride 1 and the source reference id `INT_MIN` in `p2`
the code computes `2 * INT_MIN + 1`, which is `1` as an `int`, and stores `1`, not `-1`,
as the output reference id of that position. -/
theorem merge_refid_sentinel_counterexample :
    ¬ (∀ (out : out_pos_t) (d : t_methoddata_merge) (i : Int),
        1 ≤ d.stride → (evaluate_merge out d).ret = 0 →
        0 ≤ i → i < d.p2.nr → d.p2.m.refid i < 0 →
        (evaluate_merge out d).out.m.refid ((d.stride + 1) * i + d.stride) = -1) := by
  intro hall
  have h := hall sample_out min_ref_data 0 (by decide) (by decide) (by decide) (by decide)
    (by decide)
  have h2 : (evaluate_merge sample_out min_ref_data).out.m.refid
      ((min_ref_data.stride + 1) * 0 + min_ref_data.stride) = 1 := by decide
  rw [h2] at h
  exact absurd h (by decide)

/-- C12 (amended): in a successful `evaluate_merge` with stride `s >= 1`, an output
position taken from `p1` or from `p2` whose source reference id `r` is negative (any
negative value whose remapped id, `(s+1) * (r / s) + (r % s)` for `p1` and `(s+1) * r + s`
for `p2`, does not fall below `INT_MIN`) gets the output reference id `-1`;
consequently, if every source reference id is such a negative value, and in particular
if every source reference id is `-1`, every output reference id is `-1`. -/
theorem merge_refid_sentinel (out : out_pos_t) (d : t_methoddata_merge)
    (hs : 1 ≤ d.stride) (hok : (evaluate_merge out d).ret = 0) :
    (∀ i j : Int, 0 ≤ i → i < d.p2.nr → 0 ≤ j → j < d.stride →
      d.p1.m.refid (d.stride * i + j) < 0 →
      -2147483648 ≤ remap_p1 d.stride (d.p1.m.refid (d.stride * i + j)) →
      (evaluate_merge out d).out.m.refid ((d.stride + 1) * i + j) = -1) ∧
    (∀ i : Int, 0 ≤ i → i < d.p2.nr → d.p2.m.refid i < 0 →
      -2147483648 ≤ remap_p2 d.stride (d.p2.m.refid i) →
      (evaluate_merge out d).out.m.refid ((d.stride + 1) * i + d.stride) = -1) ∧
    ((∀ k : Int, 0 ≤ k → k < d.p1.nr →
        d.p1.m.refid k < 0 ∧ -2147483648 ≤ remap_p1 d.stride (d.p1.m.refid k)) →
      (∀ i : Int, 0 ≤ i → i < d.p2.nr →
        d.p2.m.refid i < 0 ∧ -2147483648 ≤ remap_p2 d.stride (d.p2.m.refid i)) →
      ∀ k : Int, 0 ≤ k → k < (evaluate_merge out d).out.nr →
        (evaluate_merge out d).out.m.refid k = -1) ∧
    ((∀ k : Int, 0 ≤ k → k < d.p1.nr → d.p1.m.refid k = -1) →
      (∀ i : Int, 0 ≤ i → i < d.p2.nr → d.p2.m.refid i = -1) →
      ∀ k : Int, 0 ≤ k → k < (evaluate_merge out d).out.nr →
        (evaluate_merge out d).out.m.refid k = -1) := by
  have h : d.p1.nr = d.stride * d.p2.nr := (evaluate_merge_ret_zero out d).mp hok
  have gP : ∀ i j : Int, 0 ≤ i → i < d.p2.nr → 0 ≤ j → j < d.stride →
      merge_refid_p1 d (d.stride * i + j) < 0 →
      (evaluate_merge out d).out.m.refid ((d.stride + 1) * i + j) = -1 := by
    intro i j hi0 hi hj0 hj hneg
    rw [merge_slot_refid_a out d h i j hi0 hi hj0 hj]
    simp [hneg]
  have gQ : ∀ i : Int, 0 ≤ i → i < d.p2.nr → merge_refid_p2 d i < 0 →
      (evaluate_merge out d).out.m.refid ((d.stride + 1) * i + d.stride) = -1 := by
    intro i hi0 hi hneg
    rw [merge_slot_refid_b out d h (by omega) i hi0 hi]
    simp [hneg]
  have gAll : (∀ k : Int, 0 ≤ k → k < d.p1.nr → merge_refid_p1 d k < 0) →
      (∀ i : Int, 0 ≤ i → i < d.p2.nr → merge_refid_p2 d i < 0) →
      ∀ k : Int, 0 ≤ k → k < (evaluate_merge out d).out.nr →
        (evaluate_merge out d).out.m.refid k = -1 := by
    intro hallA hallB k hk0 hk
    have hk2 := merge_slot_below out d h (by omega) k hk0 hk
    obtain ⟨i, j, hi0, hi, hj0, hj, hkij⟩ :=
      merge_slot_cases d.p2.nr d.stride k (by omega) hk0 hk2
    rw [hkij]
    by_cases hjs : j < d.stride
    · have hin := merge_index_in_p1 d h i j hi0 hi hj0 hjs
      exact gP i j hi0 hi hj0 hjs (hallA _ hin.1 hin.2)
    · have hje : j = d.stride := by omega
      rw [hje]
      exact gQ i hi0 hi (hallB i hi0 hi)
  refine ⟨?_, ?_, ?_, ?_⟩
  · intro i j hi0 hi hj0 hj hr hfit
    exact gP i j hi0 hi hj0 hj (merge_refid_p1_neg d hs _ hr hfit)
  · intro i hi0 hi hr hfit
    exact gQ i hi0 hi (merge_refid_p2_neg d (by omega) _ hr hfit)
  · intro hallA hallB
    exact gAll
      (fun k hk0 hk => merge_refid_p1_neg d hs k (hallA k hk0 hk).1 (hallA k hk0 hk).2)
      (fun i hi0 hi => merge_refid_p2_neg d (by omega) i (hallB i hi0 hi).1 (hallB i hi0 hi).2)
  · intro hallA hallB
    exact gAll
      (fun k hk0 hk => by rw [merge_refid_p1_sentinel d k (hallA k hk0 hk)]; omega)
      (fun i hi0 hi => by rw [merge_refid_p2_sentinel d i (hallB i hi0 hi)]; omega)

theorem merge_refid_sentinel_witness :
    (evaluate_merge sample_out neg_merge_data).out.m.refid ((neg_merge_data.stride + 1) * 0 + 1)
        = -1 ∧
      (evaluate_merge sample_out neg_merge_data).out.m.refid
        ((neg_merge_data.stride + 1) * 0 + neg_merge_data.stride) = -1 :=
  ⟨(merge_refid_sentinel sample_out neg_merge_data (by decide) (by decide)).1 0 1
     (by decide) (by decide) (by decide) (by decide) (by decide) (by decide),
   (merge_refid_sentinel sample_out neg_merge_data (by decide) (by decide)).2.1 0
     (by decide) (by decide) (by decide) (by decide)⟩

/-- C13, as stated, fails: with one position in `p1` (`p1.m.b.nr = 1`) and a position of
`p2` whose reference id is `INT_MAX`, `evaluate_plus` computes `INT_MAX + 1`, which is
`INT_MIN` as an `int`, and stores `-1`, not `r + p1.m.b.nr = 2^31`. -/
theorem plus_refid_counterexample :
    ¬ (∀ (out : out_pos_t) (d : t_methoddata_merge) (i : Int),
        0 ≤ d.p1.nr → 0 ≤ d.p1.m.b.nr → 0 ≤ i → i < d.p2.nr → 0 ≤ d.p2.m.refid i →
        (evaluate_plus out d).out.m.refid (d.p1.nr + i) = d.p2.m.refid i + d.p1.m.b.nr) := by
  intro hall
  have h := hall sample_out max_ref_data 0 (by decide) (by decide) (by decide) (by decide)
    (by decide)
  have h2 : (evaluate_plus sample_out max_ref_data).out.m.refid (max_ref_data.p1.nr + 0)
      = -1 := by decide
  rw [h2] at h
  exact absurd h (by decide)

/-- C13 (amended): after `evaluate_plus` with `a = p1.nr`, for every `i` in `[0, a)` whose
source reference id is non-negative the output reference id at slot `i` is
`p1.m.refid[i]` unchanged, and, for non-negative counts `a` and `p1.m.b.nr`, for every
`i` in `[0, p2.nr)` whose source reference id `r` is non-negative and for which
`r + p1.m.b.nr` does not exceed `INT_MAX` the output reference id at slot `a + i` is
`r + p1.m.b.nr`. -/
theorem plus_refid (out : out_pos_t) (d : t_methoddata_merge) :
    (∀ i : Int, 0 ≤ i → i < d.p1.nr → 0 ≤ d.p1.m.refid i →
      (evaluate_plus out d).out.m.refid i = d.p1.m.refid i) ∧
    (0 ≤ d.p1.nr → 0 ≤ d.p1.m.b.nr → ∀ i : Int, 0 ≤ i → i < d.p2.nr → 0 ≤ d.p2.m.refid i →
      d.p2.m.refid i + d.p1.m.b.nr ≤ 2147483647 →
      (evaluate_plus out d).out.m.refid (d.p1.nr + i) = d.p2.m.refid i + d.p1.m.b.nr) := by
  constructor
  · intro i hi0 hi hr
    rw [plus_slot_refid_a out d i hi0 hi]
    have : ¬ d.p1.m.refid i < 0 := by omega
    simp only [this, if_false]
  · intro hA hb i hi0 hi hr hfit
    rw [plus_slot_refid_b out d hA i hi0 hi]
    have hne : d.p2.m.refid i ≠ -1 := by omega
    have hv : plus_refid_p2 d i = d.p2.m.refid i + d.p1.m.b.nr := by
      rw [plus_refid_p2_eq d i hne]
      exact wrap_int_of_fits ⟨by omega, hfit⟩
    have hnn : ¬ d.p2.m.refid i + d.p1.m.b.nr < 0 := by omega
    rw [hv]
    simp only [hnn, if_false]

theorem plus_refid_witness :
    (evaluate_plus sample_out (sample_data 4 2 0)).out.m.refid ((sample_data 4 2 0).p1.nr + 1)
      = (sample_data 4 2 0).p2.m.refid 1 + (sample_data 4 2 0).p1.m.b.nr :=
  (plus_refid sample_out (sample_data 4 2 0)).2 (by decide) (by decide) 1
    (by decide) (by decide) (by decide) (by decide)

/-- C14, as stated, fails: with five positions in `p1` (`p1.m.b.nr = 5`) and a position
of `p2` whose reference id is `-5`, `evaluate_plus` stores `-5 + 5 = 0`, not `-1`, as
the output reference id of that position. -/
theorem plus_refid_sentinel_counterexample :
    ¬ (∀ (out : out_pos_t) (d : t_methoddata_merge) (i : Int),
        0 ≤ d.p1.nr → 0 ≤ i → i < d.p2.nr → d.p2.m.refid i < 0 →
        (evaluate_plus out d).out.m.refid (d.p1.nr + i) = -1) := by
  intro hall
  have h := hall sample_out neg_ref_data 0 (by decide) (by decide) (by decide) (by decide)
  have h2 : (evaluate_plus sample_out neg_ref_data).out.m.refid (neg_ref_data.p1.nr + 0) = 0 := by
    decide
  rw [h2] at h
  exact absurd h (by decide)

/-- C14 (amended): in `evaluate_plus` on a `p1` with non-negative count `a`, a position
`i` of `p2` whose source reference id is `-1` gets the output reference id `-1` at slot
`a + i`; every other source reference id `r`, negative ones included, is offset by
`p1.m.b.nr` in `int` arithmetic, and the result is stored as the output reference id,
or `-1` when it is negative; when `r + p1.m.b.nr` is representable as an `int` that
result is `r + p1.m.b.nr`. -/
theorem plus_refid_sentinel (out : out_pos_t) (d : t_methoddata_merge) (hA : 0 ≤ d.p1.nr)
    (i : Int) (hi0 : 0 ≤ i) (hi : i < d.p2.nr) :
    (d.p2.m.refid i = -1 → (evaluate_plus out d).out.m.refid (d.p1.nr + i) = -1) ∧
    (d.p2.m.refid i ≠ -1 →
      (evaluate_plus out d).out.m.refid (d.p1.nr + i)
        = if int_add (d.p2.m.refid i) d.p1.m.b.nr < 0 then -1
          else int_add (d.p2.m.refid i) d.p1.m.b.nr) ∧
    (d.p2.m.refid i ≠ -1 → fits_int (d.p2.m.refid i + d.p1.m.b.nr) →
      (evaluate_plus out d).out.m.refid (d.p1.nr + i)
        = if d.p2.m.refid i + d.p1.m.b.nr < 0 then -1
          else d.p2.m.refid i + d.p1.m.b.nr) := by
  rw [plus_slot_refid_b out d hA i hi0 hi]
  refine ⟨?_, ?_, ?_⟩
  · intro hr
    simp [plus_refid_p2, hr]
  · intro hr
    simp [plus_refid_p2, hr]
  · intro hr hfit
    rw [plus_refid_p2_eq d i hr, wrap_int_of_fits hfit]

theorem plus_refid_sentinel_witness :
    (evaluate_plus sample_out neg_ref_data).out.m.refid (neg_ref_data.p1.nr + 0)
      = if neg_ref_data.p2.m.refid 0 + neg_ref_data.p1.m.b.nr < 0 then -1
        else neg_ref_data.p2.m.refid 0 + neg_ref_data.p1.m.b.nr :=
  (plus_refid_sentinel sample_out neg_ref_data (by decide) 0 (by decide) (by decide)).2.2
    (by decide) (by decide)

/-- A fold whose step writes `v a` into slot `nr` of an array and increments `nr`
leaves the slots below `nr` alone and puts item number `t` into slot `nr + t`. -/
theorem slot_fold {σ α β : Type} (step : σ → α → σ) (nr : σ → Int) (arr : σ → Int → β)
    (v : α → β) (hnr : ∀ st a, nr (step st a) = nr st + 1)
    (harr : ∀ st a, arr (step st a) = upd (arr st) (nr st) (v a)) (l : List α) :
    ∀ st : σ, (∀ k : Int, k < nr st → arr (List.foldl step st l) k = arr st k) ∧
      (∀ (t : Nat) (a : α), l[t]? = some a → arr (List.foldl step st l) (nr st + (t : Int)) = v a) := by
  induction l with
  | nil =>
    intro st
    exact ⟨fun _ _ => rfl, fun t a h => by simp at h⟩
  | cons b rest ih =>
    intro st
    obtain ⟨ihf, ihg⟩ := ih (step st b)
    rw [hnr] at ihf ihg
    constructor
    · intro k hk
      simp only [List.foldl_cons]
      rw [ihf k (by omega), harr]
      exact upd_other _ _ (by omega)
    · intro t a h
      simp only [List.foldl_cons]
      cases t with
      | zero =>
        simp only [List.getElem?_cons_zero, Option.some.injEq] at h
        subst h
        rw [Nat.cast_zero, add_zero, ihf (nr st) (by omega), harr, upd_same]
      | succ t =>
        simp only [List.getElem?_cons_succ] at h
        have := ihg t a h
        rw [← this]
        congr 1
        push_cast
        ring

theorem init_step_nr (st : out_pos_t × gmx_ana_index_t) (a : gmx_ana_pos_t × Int) :
    (init_step st a).1.nr = st.1.nr + 1 := by
  simp only [init_step, init_output_append_pos]
  rw [for_loop_frame (fun st : out_pos_t × gmx_ana_index_t => st.1.nr) _ _ (init_copy_step a.1)
    (fun _ _ => rfl)]

theorem init_step_mapid (st : out_pos_t × gmx_ana_index_t) (a : gmx_ana_pos_t × Int) :
    (init_step st a).1.m.mapid = upd st.1.m.mapid st.1.nr (a.1.m.mapid a.2) := by
  simp only [init_step, init_output_append_pos]
  rw [for_loop_frame (fun st : out_pos_t × gmx_ana_index_t => st.1.m.mapid) _ _
    (init_copy_step a.1) (fun _ _ => rfl)]

theorem init_step_orgid (st : out_pos_t × gmx_ana_index_t) (a : gmx_ana_pos_t × Int) :
    (init_step st a).1.m.orgid = upd st.1.m.orgid st.1.nr (a.1.m.orgid a.2) := by
  simp only [init_step, init_output_append_pos]
  rw [for_loop_frame (fun st : out_pos_t × gmx_ana_index_t => st.1.m.orgid) _ _
    (init_copy_step a.1) (fun _ _ => rfl)]

theorem init_state_ids (out : out_pos_t) (d : t_methoddata_merge)
    (l : List (gmx_ana_pos_t × Int)) (t : Nat) (src : gmx_ana_pos_t × Int)
    (h : l[t]? = some src) :
    (init_state out d l).1.m.mapid (t : Int) = src.1.m.mapid src.2 ∧
    (init_state out d l).1.m.orgid (t : Int) = src.1.m.orgid src.2 := by
  have hm := (slot_fold init_step (fun st => st.1.nr) (fun st => st.1.m.mapid)
    (fun a => a.1.m.mapid a.2) init_step_nr init_step_mapid l
    ((init_output_common out d).1, (init_output_common out d).2.g)).2 t src h
  have ho := (slot_fold init_step (fun st => st.1.nr) (fun st => st.1.m.orgid)
    (fun a => a.1.m.orgid a.2) init_step_nr init_step_orgid l
    ((init_output_common out d).1, (init_output_common out d).2.g)).2 t src h
  have h0 : (init_output_common out d).1.nr = 0 := rfl
  simp only [h0, zero_add] at hm ho
  exact ⟨hm, ho⟩

theorem eval_step_orgid (st : out_pos_t × gmx_ana_index_t) (a : gmx_ana_pos_t × Int × Int) :
    (eval_step st a).1.m.orgid = st.1.m.orgid := by
  simp only [eval_step, evaluate_append_pos]
  split <;> rfl

theorem eval_step_mapid (st : out_pos_t × gmx_ana_index_t) (a : gmx_ana_pos_t × Int × Int) :
    (eval_step st a).1.m.mapid
      = if a.2.2 < 0 then st.1.m.mapid
        else upd st.1.m.mapid st.1.nr (st.1.m.orgid a.2.2) := by
  simp only [eval_step, evaluate_append_pos]
  split <;> rfl

theorem eval_fold_orgid (l : List (gmx_ana_pos_t × Int × Int)) :
    ∀ st : out_pos_t × gmx_ana_index_t,
      (List.foldl eval_step st l).1.m.orgid = st.1.m.orgid := by
  induction l with
  | nil => intro st; rfl
  | cons b rest ih =>
    intro st
    simp only [List.foldl_cons, ih, eval_step_orgid]

theorem eval_fold_mapid_frame (l : List (gmx_ana_pos_t × Int × Int)) :
    ∀ (st : out_pos_t × gmx_ana_index_t) (k : Int), k < st.1.nr →
      (List.foldl eval_step st l).1.m.mapid k = st.1.m.mapid k := by
  induction l with
  | nil => intro st k _; rfl
  | cons b rest ih =>
    intro st k hk
    simp only [List.foldl_cons]
    rw [ih (eval_step st b) k (by rw [eval_step_nr]; omega), eval_step_mapid]
    split
    · rfl
    · exact upd_other _ _ (by omega)

/-- After a run of appends, slot `nr + t` holds the `orgid` entry at the reference id
passed by append number `t` when that id is non-negative, and its old value otherwise. -/
theorem eval_fold_mapid (l : List (gmx_ana_pos_t × Int × Int)) :
    ∀ (st : out_pos_t × gmx_ana_index_t) (t : Nat) (a : gmx_ana_pos_t × Int × Int),
      l[t]? = some a →
      (List.foldl eval_step st l).1.m.mapid (st.1.nr + (t : Int))
        = if a.2.2 < 0 then st.1.m.mapid (st.1.nr + (t : Int)) else st.1.m.orgid a.2.2 := by
  induction l with
  | nil => intro st t a h; simp at h
  | cons b rest ih =>
    intro st t a h
    simp only [List.foldl_cons]
    cases t with
    | zero =>
      simp only [List.getElem?_cons_zero, Option.some.injEq] at h
      subst h
      rw [Nat.cast_zero, add_zero,
        eval_fold_mapid_frame rest (eval_step st b) _ (by rw [eval_step_nr]; omega),
        eval_step_mapid]
      split
      · rfl
      · exact upd_same _ _ _
    | succ t =>
      simp only [List.getElem?_cons_succ] at h
      have := ih (eval_step st b) t a h
      rw [eval_step_nr, eval_step_orgid] at this
      have e : st.1.nr + ((t + 1 : Nat) : Int) = st.1.nr + 1 + (t : Int) := by
        push_cast
        ring
      rw [e, this]
      have hold : (eval_step st b).1.m.mapid (st.1.nr + 1 + (t : Int))
          = st.1.m.mapid (st.1.nr + 1 + (t : Int)) := by
        rw [eval_step_mapid]
        split
        · rfl
        · exact upd_other _ _ (by omega)
      rw [hold]

theorem eval_state_mapid (out : out_pos_t) (d : t_methoddata_merge)
    (l : List (gmx_ana_pos_t × Int × Int)) (t : Nat) (a : gmx_ana_pos_t × Int × Int)
    (h : l[t]? = some a) :
    (eval_state out d l).1.m.mapid (t : Int)
      = if a.2.2 < 0 then out.m.mapid (t : Int) else out.m.orgid a.2.2 := by
  have := eval_fold_mapid l ((evaluate_common out d).1, (evaluate_common out d).2.g) t a h
  have h0 : ((evaluate_common out d).1, (evaluate_common out d).2.g).1.nr = 0 := rfl
  rw [h0, zero_add] at this
  exact this

theorem eval_state_orgid (out : out_pos_t) (d : t_methoddata_merge)
    (l : List (gmx_ana_pos_t × Int × Int)) :
    (eval_state out d l).1.m.orgid = out.m.orgid := by
  unfold eval_state
  rw [eval_fold_orgid]
  rfl

/-- C16, as stated, fails: on the output initialized by `init_output_plus` from
`sample_data 2 1 0`, evaluating a frame whose `p2` position has no reference
(`refid = -1`) and `mapid = 7` leaves the `mapid` of its output slot at the value 0 it
had before the call. -/
theorem evaluate_mapid_counterexample :
    ¬ (∀ (out : out_pos_t) (d : t_methoddata_merge) (i : Int),
        0 ≤ d.p1.nr → 0 ≤ i → i < d.p2.nr →
        (evaluate_plus out d).out.m.mapid (d.p1.nr + i) = d.p2.m.mapid i) := by
  intro hall
  have h := hall (init_output_plus sample_out (sample_data 2 1 0)).out unref_frame_data 0
    (by decide) (by decide) (by decide)
  have h1 : (evaluate_plus (init_output_plus sample_out (sample_data 2 1 0)).out
      unref_frame_data).out.m.mapid (unref_frame_data.p1.nr + 0) = 0 := by decide
  have h2 : unref_frame_data.p2.m.mapid 0 = 7 := rfl
  rw [h1, h2] at h
  exact absurd h (by decide)

/-- C16 (amended): during per-frame evaluation the append primitive does not read the
`mapid` of the source position: `evaluate_append_pos` sets the `mapid` of the new
position to the output's own `orgid` entry at the reference id it is passed when that
id is non-negative, and leaves the `mapid` array as it is when the id is negative.
Hence after a successful `evaluate_merge`, and after `evaluate_plus`, the `mapid` of
output slot `t` is `out.m.orgid[refid]` for the reference id passed by append number
`t` when that id is non-negative, and the value the slot had before the call
otherwise. -/
theorem evaluate_mapid (out : out_pos_t) (d : t_methoddata_merge) :
    (∀ (g : gmx_ana_index_t) (src : gmx_ana_pos_t) (i refid : Int),
      (evaluate_append_pos out g src i refid).1.m.mapid
        = if refid < 0 then out.m.mapid else upd out.m.mapid out.nr (out.m.orgid refid)) ∧
    ((evaluate_merge out d).ret = 0 →
      ∀ (t : Nat) (a : gmx_ana_pos_t × Int × Int), (merge_appends d)[t]? = some a →
        (evaluate_merge out d).out.m.mapid (t : Int)
          = if a.2.2 < 0 then out.m.mapid (t : Int) else out.m.orgid a.2.2) ∧
    (∀ (t : Nat) (a : gmx_ana_pos_t × Int × Int), (plus_appends d)[t]? = some a →
      (evaluate_plus out d).out.m.mapid (t : Int)
        = if a.2.2 < 0 then out.m.mapid (t : Int) else out.m.orgid a.2.2) := by
  refine ⟨?_, ?_, ?_⟩
  · intro g src i refid
    exact eval_step_mapid (out, g) (src, i, refid)
  · intro hok t a ha
    have h : d.p1.nr = d.stride * d.p2.nr := (evaluate_merge_ret_zero out d).mp hok
    rw [evaluate_merge_ok out d h]
    exact eval_state_mapid out d _ t a ha
  · intro t a ha
    rw [evaluate_plus_eq]
    exact eval_state_mapid out d _ t a ha

theorem evaluate_mapid_witness :
    (evaluate_merge sample_out (sample_data 4 2 2)).out.m.mapid ((2 : Nat) : Int)
      = if ((sample_data 4 2 2).p2, (0 : Int), merge_refid_p2 (sample_data 4 2 2) 0).2.2 < 0
        then sample_out.m.mapid ((2 : Nat) : Int)
        else sample_out.m.orgid
          ((sample_data 4 2 2).p2, (0 : Int), merge_refid_p2 (sample_data 4 2 2) 0).2.2 :=
  (evaluate_mapid sample_out (sample_data 4 2 2)).2.1 (by decide) 2
    ((sample_data 4 2 2).p2, 0, merge_refid_p2 (sample_data 4 2 2) 0) rfl

/-- C17: per-frame evaluation never modifies the `orgid` values of the output: the
`orgid` array after `evaluate_merge` (successful or not) and after `evaluate_plus` is the
array before the call. -/
theorem evaluate_keeps_orgid (out : out_pos_t) (d : t_methoddata_merge) :
    (evaluate_merge out d).out.m.orgid = out.m.orgid ∧
    (evaluate_plus out d).out.m.orgid = out.m.orgid := by
  constructor
  · by_cases h : d.p1.nr = d.stride * d.p2.nr
    · rw [evaluate_merge_ok out d h]
      exact eval_state_orgid out d _
    · rw [evaluate_merge_err out d h]
  · rw [evaluate_plus_eq]
    exact eval_state_orgid out d _

/-- C18: when `evaluate_merge` fails (it returns a code other than 0), the code is `-1`
and nothing has changed: the output position set and the method data, that is the
output index group, the inputs and the stride, are exactly as before the call. -/
theorem evaluate_merge_failure_frame (out : out_pos_t) (d : t_methoddata_merge)
    (hfail : (evaluate_merge out d).ret ≠ 0) :
    (evaluate_merge out d).ret = -1 ∧
    d.p1.nr ≠ d.stride * d.p2.nr ∧
    (evaluate_merge out d).out = out ∧
    (evaluate_merge out d).data = d := by
  have h : d.p1.nr ≠ d.stride * d.p2.nr := fun e => hfail ((evaluate_merge_ret_zero out d).mpr e)
  rw [evaluate_merge_err out d h]
  exact ⟨rfl, h, rfl, rfl⟩

theorem evaluate_merge_failure_frame_witness :
    (evaluate_merge sample_out (sample_data 5 2 2)).ret = -1 ∧
      (sample_data 5 2 2).p1.nr ≠ (sample_data 5 2 2).stride * (sample_data 5 2 2).p2.nr ∧
      (evaluate_merge sample_out (sample_data 5 2 2)).out = sample_out ∧
      (evaluate_merge sample_out (sample_data 5 2 2)).data = sample_data 5 2 2 :=
  evaluate_merge_failure_frame sample_out (sample_data 5 2 2) (by decide)

/-! ## The size of the output group -/

theorem range_lengths_append (l1 l2 : List (gmx_ana_pos_t × Int)) :
    range_lengths (l1 ++ l2) = range_lengths l1 + range_lengths l2 := by
  simp [range_lengths, List.sum_append]

theorem range_lengths_nonneg (l : List (gmx_ana_pos_t × Int)) : 0 ≤ range_lengths l := by
  induction l with
  | nil => simp [range_lengths]
  | cons a rest ih =>
    have e : range_lengths (a :: rest)
        = ((particle_slice a).length : Int) + range_lengths rest := by
      simp [range_lengths]
    rw [e]
    omega

theorem lay_fold_isize (l : List (gmx_ana_pos_t × Int)) :
    ∀ L : layout, (List.foldl lay_append L l).g.isize = L.g.isize + range_lengths l := by
  induction l with
  | nil => intro L; simp [range_lengths]
  | cons a rest ih =>
    intro L
    have e : range_lengths (a :: rest)
        = ((particle_slice a).length : Int) + range_lengths rest := by
      simp [range_lengths]
    simp only [List.foldl_cons, ih, e]
    simp only [lay_append, append_slice]
    ring

theorem lay_fold_nalloc (l : List (gmx_ana_pos_t × Int)) :
    ∀ L : layout, (List.foldl lay_append L l).g.nalloc_index = L.g.nalloc_index := by
  induction l with
  | nil => intro L; rfl
  | cons a rest ih =>
    intro L
    simp only [List.foldl_cons, ih]
    rfl

/-- Appends leave the group entries below the old size and from the new size on alone. -/
theorem lay_fold_index_frame (l : List (gmx_ana_pos_t × Int)) :
    ∀ (L : layout) (k : Int), (k < L.g.isize ∨ (List.foldl lay_append L l).g.isize ≤ k) →
      (List.foldl lay_append L l).g.index k = L.g.index k := by
  induction l with
  | nil => intro L k _; rfl
  | cons a rest ih =>
    intro L k hk
    simp only [List.foldl_cons] at hk ⊢
    have hsz : (lay_append L a).g.isize = L.g.isize + ((particle_slice a).length : Int) := rfl
    have hfin := lay_fold_isize rest (lay_append L a)
    have hnn := range_lengths_nonneg rest
    rw [ih (lay_append L a) k (by
      rcases hk with hk | hk
      · left; omega
      · right; exact hk)]
    have hout : ¬ (L.g.isize ≤ k ∧ k < L.g.isize + ((particle_slice a).length : Int)) := by
      rcases hk with hk | hk
      · omega
      · omega
    simp [lay_append, append_slice, hout]

theorem well_formed_mono {p : gmx_ana_pos_t} (w : well_formed_ranges p) (k : Int)
    (hk0 : 0 ≤ k) (hk : k < p.nr) : p.m.mapb.index k ≤ p.m.mapb.index (k + 1) := by
  have := w.2.1 k.toNat (List.mem_range.mpr (by omega))
  rwa [Int.toNat_of_nonneg hk0] at this

/-- The lengths of `m` consecutive particle ranges starting at position `lo` add up to
the distance between the first and the last boundary, when the boundaries are ordered. -/
theorem run_range_lengths (p : gmx_ana_pos_t) (lo : Int) (m : Nat)
    (hmono : ∀ k : Int, lo ≤ k → k < lo + (m : Int) →
      p.m.mapb.index k ≤ p.m.mapb.index (k + 1)) :
    range_lengths ((List.range m).map (fun (j : Nat) => (p, lo + (j : Int))))
      = p.m.mapb.index (lo + (m : Int)) - p.m.mapb.index lo := by
  induction m with
  | zero => simp [range_lengths]
  | succ m ih =>
    rw [List.range_succ, List.map_append, range_lengths_append,
      ih (fun k h1 h2 => hmono k h1 (by push_cast; omega))]
    have hlast := hmono (lo + (m : Int)) (by omega) (by push_cast; omega)
    have e : range_lengths [(p, lo + (m : Int))]
        = p.m.mapb.index (lo + (m : Int) + 1) - p.m.mapb.index (lo + (m : Int)) := by
      simp only [range_lengths, List.map_cons, List.map_nil, List.sum_cons, List.sum_nil,
        add_zero, particle_slice, slice_length]
      omega
    simp only [List.map_cons, List.map_nil]
    rw [e]
    have e2 : lo + ((m + 1 : Nat) : Int) = lo + (m : Int) + 1 := by push_cast; ring
    rw [e2]
    ring

theorem plus_range_lengths (d : t_methoddata_merge) (hA : 0 ≤ d.p1.nr) (hB : 0 ≤ d.p2.nr)
    (w1 : well_formed_ranges d.p1) (w2 : well_formed_ranges d.p2) :
    range_lengths (plus_sources d)
      = (d.p1.m.mapb.index d.p1.nr - d.p1.m.mapb.index 0)
        + (d.p2.m.mapb.index d.p2.nr - d.p2.m.mapb.index 0) := by
  have hA2 := run_range_lengths d.p1 0 d.p1.nr.toNat
    (fun k h1 h2 => well_formed_mono w1 k h1 (by omega))
  have hB2 := run_range_lengths d.p2 0 d.p2.nr.toNat
    (fun k h1 h2 => well_formed_mono w2 k h1 (by omega))
  simp only [zero_add, Int.toNat_of_nonneg hA, Int.toNat_of_nonneg hB] at hA2 hB2
  unfold plus_sources plus_order
  rw [range_lengths_append, hA2, hB2]

theorem merge_range_lengths (d : t_methoddata_merge) (hs : 0 ≤ d.stride)
    (h : d.p1.nr = d.stride * d.p2.nr)
    (w1 : well_formed_ranges d.p1) (w2 : well_formed_ranges d.p2) (N : Nat)
    (hN : (N : Int) ≤ d.p2.nr) :
    range_lengths ((List.range N).flatMap (fun (i : Nat) =>
        (List.range d.stride.toNat).map (fun (j : Nat) => (d.p1, d.stride * (i : Int) + (j : Int)))
          ++ [(d.p2, (i : Int))]))
      = (d.p1.m.mapb.index (d.stride * (N : Int)) - d.p1.m.mapb.index 0)
        + (d.p2.m.mapb.index (N : Int) - d.p2.m.mapb.index 0) := by
  induction N with
  | zero => simp [range_lengths]
  | succ N ih =>
    have hN1 : (N : Int) + 1 ≤ d.p2.nr := by push_cast at hN; exact hN
    rw [List.range_succ, List.flatMap_append, range_lengths_append, ih (by omega)]
    simp only [List.flatMap_cons, List.flatMap_nil, List.append_nil]
    rw [range_lengths_append]
    have hbound : d.stride * ((N : Int) + 1) ≤ d.p1.nr := by
      rw [h]
      exact mul_le_mul_of_nonneg_left hN1 hs
    have hlow : 0 ≤ d.stride * (N : Int) := mul_nonneg hs (by omega)
    have hrun := run_range_lengths d.p1 (d.stride * (N : Int)) d.stride.toNat
      (fun k h1 h2 => well_formed_mono w1 k (by omega) (by
        rw [Int.toNat_of_nonneg hs] at h2
        have e : d.stride * ((N : Int) + 1) = d.stride * (N : Int) + d.stride := by ring
        omega))
    rw [hrun, Int.toNat_of_nonneg hs]
    have hB := well_formed_mono w2 (N : Int) (by omega) (by omega)
    have e : range_lengths [(d.p2, (N : Int))]
        = d.p2.m.mapb.index ((N : Int) + 1) - d.p2.m.mapb.index (N : Int) := by
      simp only [range_lengths, List.map_cons, List.map_nil, List.sum_cons, List.sum_nil,
        add_zero, particle_slice, slice_length]
      omega
    rw [e]
    have e2 : d.stride * (((N + 1 : Nat) : Int)) = d.stride * (N : Int) + d.stride := by
      push_cast
      ring
    have e3 : (((N + 1 : Nat) : Int)) = (N : Int) + 1 := by push_cast; ring
    rw [e2, e3]
    ring

theorem plus_range_bound (d : t_methoddata_merge) (hA : 0 ≤ d.p1.nr) (hB : 0 ≤ d.p2.nr)
    (w1 : well_formed_ranges d.p1) (w2 : well_formed_ranges d.p2) :
    range_lengths (plus_sources d) ≤ d.p1.g.isize + d.p2.g.isize := by
  rw [plus_range_lengths d hA hB w1 w2]
  have a1 := w1.1
  have a2 := w1.2.2
  have b1 := w2.1
  have b2 := w2.2.2
  omega

theorem merge_range_bound (d : t_methoddata_merge) (hA : 0 ≤ d.p1.nr) (hB : 0 ≤ d.p2.nr)
    (h : d.p1.nr = d.stride * d.p2.nr)
    (w1 : well_formed_ranges d.p1) (w2 : well_formed_ranges d.p2) :
    range_lengths (merge_sources d) ≤ d.p1.g.isize + d.p2.g.isize := by
  have a1 := w1.1
  have a2 := w1.2.2
  have b1 := w2.1
  have b2 := w2.2.2
  by_cases hn : d.p2.nr = 0
  · have e : merge_sources d = [] := by
      simp [merge_sources, merge_order, hn]
    have ha : d.p1.nr = 0 := by rw [h, hn]; ring
    rw [e]
    rw [ha] at a2
    rw [hn] at b2
    simp only [range_lengths, List.map_nil, List.sum_nil]
    omega
  · have hs : 0 ≤ d.stride := merge_stride_nonneg d hA h (by omega)
    have hm := merge_range_lengths d hs h w1 w2 d.p2.nr.toNat (by omega)
    rw [Int.toNat_of_nonneg hB, ← h] at hm
    have e : range_lengths (merge_sources d)
        = (d.p1.m.mapb.index d.p1.nr - d.p1.m.mapb.index 0)
          + (d.p2.m.mapb.index d.p2.nr - d.p2.m.mapb.index 0) := hm
    rw [e]
    omega

theorem eval_state_group (out : out_pos_t) (d : t_methoddata_merge)
    (l : List (gmx_ana_pos_t × Int × Int)) :
    (eval_state out d l).2.isize = range_lengths (l.map (fun a => (a.1, a.2.1))) ∧
    (eval_state out d l).2.nalloc_index = d.g.nalloc_index ∧
    ∀ k : Int, (k < 0 ∨ (eval_state out d l).2.isize ≤ k) →
      (eval_state out d l).2.index k = d.g.index k := by
  have hlay : lay (eval_state out d l)
      = List.foldl lay_append (lay ((evaluate_common out d).1, (evaluate_common out d).2.g))
          (l.map (fun a => (a.1, a.2.1))) := lay_foldl_eval l _
  have hg : (eval_state out d l).2 = (lay (eval_state out d l)).g := rfl
  rw [hg, hlay]
  refine ⟨?_, ?_, ?_⟩
  · rw [lay_fold_isize]
    simp [lay, evaluate_common]
  · rw [lay_fold_nalloc]
    rfl
  · intro k hk
    rw [lay_fold_index_frame _ _ k (by
      rcases hk with hk | hk
      · left; exact hk
      · right; exact hk)]
    rfl

theorem merge_order_mem {α : Type} (n s : Int) (fa fb : Int → α) (a : α)
    (h : a ∈ merge_order n s fa fb) :
    (∃ i j : Int, 0 ≤ i ∧ i < n ∧ 0 ≤ j ∧ j < s ∧ a = fa (s * i + j)) ∨
    (∃ i : Int, 0 ≤ i ∧ i < n ∧ a = fb i) := by
  unfold merge_order at h
  rw [List.mem_flatMap] at h
  obtain ⟨i, hi, hmem⟩ := h
  have hi2 := List.mem_range.mp hi
  rw [List.mem_append] at hmem
  rcases hmem with hmem | hmem
  · rw [List.mem_map] at hmem
    obtain ⟨j, hj, hja⟩ := hmem
    have hj2 := List.mem_range.mp hj
    exact Or.inl ⟨(i : Int), (j : Int), by omega, by omega, by omega, by omega, hja.symm⟩
  · rw [List.mem_singleton] at hmem
    exact Or.inr ⟨(i : Int), by omega, by omega, hmem⟩

/-- A non-negative source id of `p1` below `s*n` is remapped below `(s+1)*n`. -/
theorem merge_refid_p1_lt (d : t_methoddata_merge) (hs : 1 ≤ d.stride) (k : Int)
    (hr0 : 0 ≤ d.p1.m.refid k) (hr : d.p1.m.refid k < d.stride * d.p2.nr) :
    merge_refid_p1 d k < (d.stride + 1) * d.p2.nr := by
  have hne : d.p1.m.refid k ≠ -1 := by omega
  have hnn := remap_p1_nonneg d.stride (d.p1.m.refid k) hs hr0
  have hle := wrap_int_le_of_nonneg hnn
  rw [merge_refid_p1_eq d k hne]
  rw [remap_p1_eq_ediv d.stride _ hs hr0] at hle ⊢
  have hq : d.p1.m.refid k / d.stride < d.p2.nr :=
    Int.ediv_lt_of_lt_mul (by omega) (by rw [mul_comm]; exact hr)
  have hm : d.p1.m.refid k % d.stride < d.stride := Int.emod_lt_of_pos _ (by omega)
  have hmul : (d.stride + 1) * (d.p1.m.refid k / d.stride + 1) ≤ (d.stride + 1) * d.p2.nr :=
    mul_le_mul_of_nonneg_left (by omega) (by omega)
  have e : (d.stride + 1) * (d.p1.m.refid k / d.stride + 1)
      = (d.stride + 1) * (d.p1.m.refid k / d.stride) + (d.stride + 1) := by ring
  omega

/-- A non-negative source id of `p2` below `n` is mapped below `(s+1)*n`. -/
theorem merge_refid_p2_lt (d : t_methoddata_merge) (hs : 0 ≤ d.stride) (i : Int)
    (hr0 : 0 ≤ d.p2.m.refid i) (hr : d.p2.m.refid i < d.p2.nr) :
    merge_refid_p2 d i < (d.stride + 1) * d.p2.nr := by
  have hnn : 0 ≤ remap_p2 d.stride (d.p2.m.refid i) := by
    unfold remap_p2
    have := mul_nonneg (show (0 : Int) ≤ d.stride + 1 by omega) hr0
    omega
  have hle := wrap_int_le_of_nonneg hnn
  rw [merge_refid_p2_eq d i]
  unfold remap_p2 at hle ⊢
  have hmul : (d.stride + 1) * (d.p2.m.refid i + 1) ≤ (d.stride + 1) * d.p2.nr :=
    mul_le_mul_of_nonneg_left (by omega) (by omega)
  have e : (d.stride + 1) * (d.p2.m.refid i + 1)
      = (d.stride + 1) * d.p2.m.refid i + (d.stride + 1) := by ring
  omega

/-- Every reference id that `evaluate_merge` passes to `evaluate_append_pos` is negative
or below `(s+1)*n`, when the source ids are within their position sets or negative
without underflow of the remapped id. -/
theorem merge_appends_refid_lt (d : t_methoddata_merge) (hs : 1 ≤ d.stride)
    (h : d.p1.nr = d.stride * d.p2.nr)
    (hinA : ∀ k : Int, 0 ≤ k → k < d.p1.nr → 0 ≤ d.p1.m.refid k → d.p1.m.refid k < d.p1.nr)
    (hinB : ∀ i : Int, 0 ≤ i → i < d.p2.nr → 0 ≤ d.p2.m.refid i → d.p2.m.refid i < d.p2.nr)
    (hnegA : ∀ k : Int, 0 ≤ k → k < d.p1.nr → d.p1.m.refid k < 0 →
      -2147483648 ≤ remap_p1 d.stride (d.p1.m.refid k))
    (hnegB : ∀ i : Int, 0 ≤ i → i < d.p2.nr → d.p2.m.refid i < 0 →
      -2147483648 ≤ remap_p2 d.stride (d.p2.m.refid i))
    (a : gmx_ana_pos_t × Int × Int) (ha : a ∈ merge_appends d) (hnn : 0 ≤ a.2.2) :
    a.2.2 < (d.stride + 1) * d.p2.nr := by
  rcases merge_order_mem _ _ _ _ a ha with ⟨i, j, hi0, hi, hj0, hj, rfl⟩ | ⟨i, hi0, hi, rfl⟩
  · have hin := merge_index_in_p1 d h i j hi0 hi hj0 hj
    have hr0 : 0 ≤ d.p1.m.refid (d.stride * i + j) := by
      by_contra hneg
      have := merge_refid_p1_neg d hs (d.stride * i + j) (by omega)
        (hnegA _ hin.1 hin.2 (by omega))
      simp only at hnn
      omega
    have hr := hinA _ hin.1 hin.2 hr0
    rw [h] at hr
    exact merge_refid_p1_lt d hs _ hr0 hr
  · have hr0 : 0 ≤ d.p2.m.refid i := by
      by_contra hneg
      have := merge_refid_p2_neg d (by omega) i (by omega) (hnegB i hi0 hi (by omega))
      simp only at hnn
      omega
    exact merge_refid_p2_lt d (by omega) i hr0 (hinB i hi0 hi hr0)

/-- C21, as stated, fails: with stride 1, one position in each input and the reference id
`INT_MIN + 5` in `p2` (so that no non-negative source id is out of range), the code
computes `2 * (INT_MIN + 5) + 1`, which is `11` as an `int`, and stores the
non-negative output reference id `11`, which is not below the output count `2`. -/
theorem merge_refid_in_range_counterexample :
    ¬ (∀ (out : out_pos_t) (d : t_methoddata_merge),
        1 ≤ d.stride → (evaluate_merge out d).ret = 0 →
        (∀ k : Int, 0 ≤ k → k < d.p1.nr → 0 ≤ d.p1.m.refid k → d.p1.m.refid k < d.p1.nr) →
        (∀ i : Int, 0 ≤ i → i < d.p2.nr → 0 ≤ d.p2.m.refid i → d.p2.m.refid i < d.p2.nr) →
        ∀ k : Int, 0 ≤ k → k < (evaluate_merge out d).out.nr →
          0 ≤ (evaluate_merge out d).out.m.refid k →
          (evaluate_merge out d).out.m.refid k < (d.stride + 1) * d.p2.nr) := by
  intro hall
  have hA : ∀ k : Int, 0 ≤ k → k < low_ref_data.p1.nr → 0 ≤ low_ref_data.p1.m.refid k →
      low_ref_data.p1.m.refid k < low_ref_data.p1.nr := fun _ _ hk _ => hk
  have hB : ∀ i : Int, 0 ≤ i → i < low_ref_data.p2.nr → 0 ≤ low_ref_data.p2.m.refid i →
      low_ref_data.p2.m.refid i < low_ref_data.p2.nr :=
    fun _ _ _ h0 => absurd h0 (show ¬ (0 : Int) ≤ -2147483643 from by decide)
  have h := hall sample_out low_ref_data (by decide) (by decide) hA hB 1 (by decide)
    (by decide) (by decide)
  have h2 : (evaluate_merge sample_out low_ref_data).out.m.refid 1 = 11 := by decide
  rw [h2] at h
  exact absurd h (by decide)

/-- C21 (amended): in a successful `evaluate_merge` with stride `s >= 1` and `n = p2.nr`,
if every non-negative reference id of `p1` (at a position in `[0, p1.nr)`) is below
`p1.nr = s*n`, every non-negative reference id of `p2` is below `n`, and the remapped id
of every negative source reference id `r` (`(s+1) * (r / s) + (r % s)` for `p1`,
`(s+1) * r + s` for `p2`) does not fall below `INT_MIN`, then every reference id passed
to `evaluate_append_pos`, which is the index of the lookup `out.orgid[refid]` when it is
non-negative, is negative or below `(s+1)*n`, and every non-negative output reference id
is below `(s+1)*n`, which is the output count. -/
theorem merge_refid_in_range (out : out_pos_t) (d : t_methoddata_merge)
    (hs : 1 ≤ d.stride) (hok : (evaluate_merge out d).ret = 0)
    (hinA : ∀ k : Int, 0 ≤ k → k < d.p1.nr → 0 ≤ d.p1.m.refid k → d.p1.m.refid k < d.p1.nr)
    (hinB : ∀ i : Int, 0 ≤ i → i < d.p2.nr → 0 ≤ d.p2.m.refid i → d.p2.m.refid i < d.p2.nr)
    (hnegA : ∀ k : Int, 0 ≤ k → k < d.p1.nr → d.p1.m.refid k < 0 →
      -2147483648 ≤ remap_p1 d.stride (d.p1.m.refid k))
    (hnegB : ∀ i : Int, 0 ≤ i → i < d.p2.nr → d.p2.m.refid i < 0 →
      -2147483648 ≤ remap_p2 d.stride (d.p2.m.refid i)) :
    d.p1.nr = d.stride * d.p2.nr ∧
    (∀ a ∈ merge_appends d, 0 ≤ a.2.2 → a.2.2 < (d.stride + 1) * d.p2.nr) ∧
    (∀ k : Int, 0 ≤ k → k < (evaluate_merge out d).out.nr →
      0 ≤ (evaluate_merge out d).out.m.refid k →
      (evaluate_merge out d).out.m.refid k < (d.stride + 1) * d.p2.nr ∧
      (evaluate_merge out d).out.nr = (d.stride + 1) * d.p2.nr) := by
  have h : d.p1.nr = d.stride * d.p2.nr := (evaluate_merge_ret_zero out d).mp hok
  refine ⟨h, fun a ha hnn => merge_appends_refid_lt d hs h hinA hinB hnegA hnegB a ha hnn, ?_⟩
  intro k hk0 hk hnn
  have hk2 := merge_slot_below out d h (by omega) k hk0 hk
  have hnpos : 0 ≤ d.p2.nr := by
    by_contra hneg
    have : (d.stride + 1) * d.p2.nr ≤ 0 :=
      mul_nonpos_of_nonneg_of_nonpos (by omega) (by omega)
    omega
  have hcount : (evaluate_merge out d).out.nr = (d.stride + 1) * d.p2.nr := by
    rw [merge_out_nr out d h, Int.toNat_of_nonneg hnpos, Int.toNat_of_nonneg (by omega)]
    ring
  refine ⟨?_, hcount⟩
  have hkt : ((k.toNat : Nat) : Int) = k := Int.toNat_of_nonneg hk0
  have hlen : k.toNat < (merge_appends d).length := by
    have hl : (merge_appends d).length = d.p2.nr.toNat * (d.stride.toNat + 1) :=
      merge_order_length _ _ _ _
    have hk3 := hk
    rw [merge_out_nr out d h] at hk3
    rw [hl]
    have : ((k.toNat : Nat) : Int) < ((d.p2.nr.toNat * (d.stride.toNat + 1) : Nat) : Int) := by
      push_cast
      rw [hkt]
      exact hk3
    exact_mod_cast this
  have hget : (merge_appends d)[k.toNat]? = some ((merge_appends d)[k.toNat]) :=
    List.getElem?_eq_getElem hlen
  have hslot := eval_state_refid out d (merge_appends d) k.toNat _ hget
  rw [hkt] at hslot
  have hval : (evaluate_merge out d).out.m.refid k
      = if ((merge_appends d)[k.toNat]).2.2 < 0 then -1 else ((merge_appends d)[k.toNat]).2.2 := by
    rw [evaluate_merge_ok out d h]
    exact hslot
  rw [hval] at hnn ⊢
  by_cases hneg : ((merge_appends d)[k.toNat]).2.2 < 0
  · simp only [hneg, if_true] at hnn
    omega
  · simp only [hneg, if_false]
    exact merge_appends_refid_lt d hs h hinA hinB hnegA hnegB _ (List.getElem_mem hlen) (by omega)

theorem merge_refid_in_range_witness :
    (evaluate_merge sample_out mixed_ref_data).out.m.refid 0
        < (mixed_ref_data.stride + 1) * mixed_ref_data.p2.nr ∧
      (evaluate_merge sample_out mixed_ref_data).out.nr
        = (mixed_ref_data.stride + 1) * mixed_ref_data.p2.nr :=
  (merge_refid_in_range sample_out mixed_ref_data (by decide) (by decide)
    (fun _ _ hk _ => hk)
    (fun _ _ _ h0 => absurd h0 (show ¬ (0 : Int) ≤ -1 from by decide))
    (fun _ hk0 _ hneg => absurd hk0 (not_le.mpr hneg))
    (fun _ _ _ _ => show (-2147483648 : Int) ≤ remap_p2 1 (-1) from by decide)).2.2 0
    (by decide) (by decide) (by decide)

/-! ## Agreement of initialization and evaluation -/

theorem slice_get (a : Int → Int) (lo hi : Int) (t : Nat) (ht : t < (hi - lo).toNat) :
    (slice a lo hi)[t]? = some (a (lo + (t : Int))) := by
  unfold slice
  rw [List.getElem?_map, List.getElem?_range ht]
  rfl

theorem represents_isize {L : layout} {srcs : List (gmx_ana_pos_t × Int)}
    (h : Represents L srcs) :
    0 ≤ L.g.isize ∧ L.g.isize = ((srcs.flatMap particle_slice).length : Int) := by
  have hb := h.mapb_bound 0 (Nat.zero_le _)
  have h0 : 0 ≤ L.g.isize := by
    have := h.mapb_zero
    simp only [Nat.cast_zero] at hb
    omega
  refine ⟨h0, ?_⟩
  have hl := congrArg List.length h.group
  rw [slice_length] at hl
  rw [← hl]
  omega

theorem represents_mapb_step {L : layout} {srcs : List (gmx_ana_pos_t × Int)}
    (h : Represents L srcs) (t : Nat) (src : gmx_ana_pos_t × Int) (hs : srcs[t]? = some src) :
    L.mapb ((t : Int) + 1) = L.mapb (t : Int) + ((particle_slice src).length : Int) := by
  have ht : t < srcs.length := by
    by_contra hn
    rw [List.getElem?_eq_none (by omega)] at hs
    exact Option.noConfusion hs
  have hm := h.mapb_mono t ht
  have hl := congrArg List.length (h.pos t src hs).2
  rw [slice_length] at hl
  omega

/-- Two layouts that hold the same source positions agree on everything the sources
determine. -/
theorem represents_agree {L1 L2 : layout} {srcs : List (gmx_ana_pos_t × Int)}
    (h1 : Represents L1 srcs) (h2 : Represents L2 srcs) :
    L1.nr = L2.nr ∧
    (∀ k : Int, 0 ≤ k → k < L1.nr → L1.x k = L2.x k) ∧
    (∀ k : Int, 0 ≤ k → k ≤ L1.nr → L1.mapb k = L2.mapb k) ∧
    L1.g.isize = L2.g.isize ∧
    (∀ k : Int, 0 ≤ k → k < L1.g.isize → L1.g.index k = L2.g.index k) := by
  have hnr : L1.nr = L2.nr := by rw [h1.nr_eq, h2.nr_eq]
  have hsz : L1.g.isize = L2.g.isize := by
    rw [(represents_isize h1).2, (represents_isize h2).2]
  have hmapb : ∀ t : Nat, t ≤ srcs.length → L1.mapb (t : Int) = L2.mapb (t : Int) := by
    intro t
    induction t with
    | zero =>
      intro _
      simp only [Nat.cast_zero]
      rw [h1.mapb_zero, h2.mapb_zero]
    | succ t ih =>
      intro ht
      have hlt : t < srcs.length := by omega
      have hget : srcs[t]? = some (srcs[t]) := List.getElem?_eq_getElem hlt
      have e1 := represents_mapb_step h1 t _ hget
      have e2 := represents_mapb_step h2 t _ hget
      have e : (((t + 1 : Nat)) : Int) = (t : Int) + 1 := by push_cast; ring
      rw [e, e1, e2, ih (by omega)]
  refine ⟨hnr, ?_, ?_, hsz, ?_⟩
  · intro k hk0 hk
    have hlt : k.toNat < srcs.length := by
      have := h1.nr_eq
      omega
    have hget : srcs[k.toNat]? = some (srcs[k.toNat]) := List.getElem?_eq_getElem hlt
    have a1 := (h1.pos k.toNat _ hget).1
    have a2 := (h2.pos k.toNat _ hget).1
    rw [Int.toNat_of_nonneg hk0] at a1 a2
    rw [a1, a2]
  · intro k hk0 hk
    have := hmapb k.toNat (by
      have := h1.nr_eq
      omega)
    rwa [Int.toNat_of_nonneg hk0] at this
  · intro k hk0 hk
    have g1 := slice_get L1.g.index 0 L1.g.isize k.toNat (by omega)
    have g2 := slice_get L2.g.index 0 L2.g.isize k.toNat (by omega)
    rw [h1.group] at g1
    rw [h2.group, g1] at g2
    have := Option.some.inj g2
    simpa [Int.toNat_of_nonneg hk0] using this

theorem settle_stride_inputs (d : t_methoddata_merge) :
    (settle_stride d).p1 = d.p1 ∧ (settle_stride d).p2 = d.p2 := by
  unfold settle_stride
  split <;> exact ⟨rfl, rfl⟩

theorem merge_sources_congr (d1 d2 : t_methoddata_merge) (h1 : d2.p1 = d1.p1)
    (h2 : d2.p2 = d1.p2) (h3 : d2.stride = d1.stride) :
    merge_sources d2 = merge_sources d1 := by
  unfold merge_sources
  rw [h1, h2, h3]

theorem plus_sources_congr (d1 d2 : t_methoddata_merge) (h1 : d2.p1 = d1.p1)
    (h2 : d2.p2 = d1.p2) : plus_sources d2 = plus_sources d1 := by
  unfold plus_sources
  rw [h1, h2]

/-- C22: static initialization and per-frame evaluation agree on the layout.  If
`init_output_merge` succeeds, then `evaluate_merge` on the same inputs `p1`, `p2` with the
resulting stride (whatever the output and the group it starts from) succeeds and yields
the same output count, the same coordinates in the same order, the same index group size
and contents and the same `mapb` boundaries; likewise `evaluate_plus` on the same inputs
reproduces the layout made by `init_output_plus`. -/
theorem init_evaluate_agree (out out2 : out_pos_t) (d : t_methoddata_merge) :
    (∀ (r : call_result) (d2 : t_methoddata_merge),
      init_output_merge out d = some r → r.ret = 0 →
      d2.p1 = d.p1 → d2.p2 = d.p2 → d2.stride = r.data.stride →
      (evaluate_merge out2 d2).ret = 0 ∧
      same_layout r.out r.data.g (evaluate_merge out2 d2).out (evaluate_merge out2 d2).data.g) ∧
    (∀ d2 : t_methoddata_merge, d2.p1 = d.p1 → d2.p2 = d.p2 →
      (init_output_plus out d).ret = 0 ∧ (evaluate_plus out2 d2).ret = 0 ∧
      same_layout (init_output_plus out d).out (init_output_plus out d).data.g
        (evaluate_plus out2 d2).out (evaluate_plus out2 d2).data.g) := by
  constructor
  · intro r d2 hr hret hp1 hp2 hst
    by_cases hnz : d.stride = 0 ∧ d.p2.nr = 0
    · rw [init_output_merge_none out d hnz] at hr
      exact Option.noConfusion hr
    · by_cases heq : (settle_stride d).p1.nr = (settle_stride d).stride * (settle_stride d).p2.nr
      · rw [init_output_merge_ok out d hnz heq] at hr
        have hr2 := Option.some.inj hr
        have hstr : r.data.stride = (settle_stride d).stride := by rw [← hr2]; rfl
        have hin := settle_stride_inputs d
        have hq1 : d2.p1 = (settle_stride d).p1 := by rw [hp1, hin.1]
        have hq2 : d2.p2 = (settle_stride d).p2 := by rw [hp2, hin.2]
        have hq3 : d2.stride = (settle_stride d).stride := by rw [hst, hstr]
        have h2 : d2.p1.nr = d2.stride * d2.p2.nr := by rw [hq1, hq2, hq3]; exact heq
        have hsrc := merge_sources_congr (settle_stride d) d2 hq1 hq2 hq3
        have hi := represents_init_state out (settle_stride d) (merge_sources (settle_stride d))
        have he := represents_merge out2 d2
        rw [hsrc] at he
        refine ⟨(evaluate_merge_ret_zero out2 d2).mpr h2, ?_⟩
        rw [← hr2, evaluate_merge_ok out2 d2 h2]
        exact represents_agree hi he
      · rw [init_output_merge_err out d hnz heq] at hr
        rw [← Option.some.inj hr] at hret
        simp at hret
  · intro d2 hp1 hp2
    have hsrc := plus_sources_congr d d2 hp1 hp2
    have hi := represents_init_state out d (plus_sources d)
    have he := represents_plus out2 d2
    rw [hsrc] at he
    rw [init_output_plus_eq, evaluate_plus_eq]
    exact ⟨rfl, rfl, represents_agree hi he⟩

theorem init_evaluate_agree_witness :
    (evaluate_merge sample_out (sample_data 4 2 2)).ret = 0 ∧
      same_layout
        ((init_output_merge sample_out (sample_data 4 2 0)).get (by decide)).out
        ((init_output_merge sample_out (sample_data 4 2 0)).get (by decide)).data.g
        (evaluate_merge sample_out (sample_data 4 2 2)).out
        (evaluate_merge sample_out (sample_data 4 2 2)).data.g :=
  (init_evaluate_agree sample_out sample_out (sample_data 4 2 0)).1
    ((init_output_merge sample_out (sample_data 4 2 0)).get (by decide)) (sample_data 4 2 2)
    (Option.some_get _).symm (by decide) rfl rfl (by decide)

/-- C23, as stated, fails: with `p1.m.b.nr = INT_MAX`, one position in `p1` and the
reference ids 0 and 1 in `p2`, the code computes `1 + INT_MAX` for the second position
of `p2`, which is `INT_MIN` as an `int`, and stores `-1`, not `1 + p1.m.b.nr`. -/
theorem plus_refid_identity_counterexample :
    ¬ (∀ (out : out_pos_t) (d : t_methoddata_merge),
        0 ≤ d.p1.nr → 0 ≤ d.p1.m.b.nr →
        (∀ i : Int, 0 ≤ i → i < d.p2.nr → d.p2.m.refid i = i) →
        ∀ i : Int, 0 ≤ i → i < d.p2.nr →
          (evaluate_plus out d).out.m.refid (d.p1.nr + i) = i + d.p1.m.b.nr) := by
  intro hall
  have h := hall sample_out max_bnr_data (by decide) (by decide) (fun _ _ _ => rfl) 1
    (by decide) (by decide)
  have h2 : (evaluate_plus sample_out max_bnr_data).out.m.refid (max_bnr_data.p1.nr + 1)
      = -1 := by decide
  rw [h2] at h
  exact absurd h (by decide)

/-- C23 (amended): in `evaluate_plus` on a `p1` with non-negative counts `a = p1.nr` and
`p1.m.b.nr`, if `p2.m.refid[i] = i` for every `i` in `[0, p2.nr)` and `i + p1.m.b.nr`
does not exceed `INT_MAX` for these `i`, then the output reference id at slot `a + i` is
`i + p1.m.b.nr`; and it equals the slot `a + i` for every such `i` if and only if
`p1.m.b.nr = p1.nr` or `p2` has no positions. -/
theorem plus_refid_identity (out : out_pos_t) (d : t_methoddata_merge)
    (hA : 0 ≤ d.p1.nr) (hb : 0 ≤ d.p1.m.b.nr)
    (hid : ∀ i : Int, 0 ≤ i → i < d.p2.nr → d.p2.m.refid i = i)
    (hfit : ∀ i : Int, 0 ≤ i → i < d.p2.nr → i + d.p1.m.b.nr ≤ 2147483647) :
    (∀ i : Int, 0 ≤ i → i < d.p2.nr →
      (evaluate_plus out d).out.m.refid (d.p1.nr + i) = i + d.p1.m.b.nr) ∧
    ((∀ i : Int, 0 ≤ i → i < d.p2.nr →
        (evaluate_plus out d).out.m.refid (d.p1.nr + i) = d.p1.nr + i) ↔
      (d.p1.m.b.nr = d.p1.nr ∨ d.p2.nr ≤ 0)) := by
  have hval : ∀ i : Int, 0 ≤ i → i < d.p2.nr →
      (evaluate_plus out d).out.m.refid (d.p1.nr + i) = i + d.p1.m.b.nr := by
    intro i hi0 hi
    rw [plus_slot_refid_b out d hA i hi0 hi]
    have hsrc := hid i hi0 hi
    have hne : d.p2.m.refid i ≠ -1 := by omega
    have hv : plus_refid_p2 d i = i + d.p1.m.b.nr := by
      rw [plus_refid_p2_eq d i hne, hsrc]
      exact wrap_int_of_fits ⟨by omega, hfit i hi0 hi⟩
    rw [hv]
    have hnn : ¬ i + d.p1.m.b.nr < 0 := by omega
    simp only [hnn, if_false]
  refine ⟨hval, ?_, ?_⟩
  · intro hall
    by_cases hn : d.p2.nr ≤ 0
    · exact Or.inr hn
    · left
      have h0 := hall 0 (le_refl _) (by omega)
      rw [hval 0 (le_refl _) (by omega)] at h0
      omega
  · intro hor i hi0 hi
    rw [hval i hi0 hi]
    rcases hor with hor | hor
    · omega
    · omega

theorem plus_refid_identity_witness :
    (evaluate_plus sample_out (sample_data 4 2 0)).out.m.refid ((sample_data 4 2 0).p1.nr + 1)
      = 1 + (sample_data 4 2 0).p1.m.b.nr :=
  (plus_refid_identity sample_out (sample_data 4 2 0) (by decide) (by decide)
    (fun _ _ _ => rfl)
    (fun i _ hi => by
      have h2 : i < 2 := hi
      show i + 4 ≤ 2147483647
      omega)).1 1 (by decide) (by decide)

end SmMerge
